import Mathlib

/-!
Shallow embedding of `apple-opensource-downloader` (src/download.rs, src/git.rs)
and verification of the specification's claims about it.

Strings (version strings, URLs, component names, tar paths) are modelled as
lists of characters (`Str`), matching the byte-level operations the Rust code
performs on them.  Content-addressed git objects are modelled structurally:
the identifier of an object is the object value itself, so equal content
yields equal identifiers.
-/

namespace AppleOSS

abbrev Str := List Char

/-- Abbreviation for embedding string literals as `Str`. -/
def strL (s : String) : Str := s.data

/-- Rust's `Ord::cmp` on natural numbers. -/
def natCmp (x y : Nat) : Ordering :=
  if x < y then .lt else if x = y then .eq else .gt

/-- Lexicographic comparison of byte strings; models Rust's `str::partial_cmp`
(which compares UTF-8 bytes; byte order coincides with code-point order,
which `Char.toNat` exposes). -/
def lexCompare : Str → Str → Ordering
  | [], [] => .eq
  | [], _ :: _ => .lt
  | _ :: _, [] => .gt
  | a :: as, b :: bs =>
    match natCmp a.toNat b.toNat with
    | .eq => lexCompare as bs
    | ord => ord

/-- Models Rust's `str::split('.')`: splitting `""` yields `[""]`,
adjacent separators yield empty segments. -/
def splitOnDot : Str → List Str
  | [] => [[]]
  | c :: rest =>
    let r := splitOnDot rest
    if c = '.' then [] :: r
    else
      match r with
      | h :: t => (c :: h) :: t
      | [] => [[c]]

/-- Models Rust's `u32::from_str`: optional leading `+`, at least one ASCII
digit, value must fit in 32 bits. -/
def parseU32 (s : Str) : Option Nat :=
  let digits := match s with
    | '+' :: r => r
    | _ => s
  if digits = [] then none
  else if digits.all (fun c => c.isDigit) then
    let v := digits.foldl (fun a c => a * 10 + (c.toNat - 48)) 0
    if v < 4294967296 then some v else none
  else none

/-- One iteration of the `compare_version_string` loop body
(src/download.rs lines 33-43): when both segments parse as `u32`, a non-equal
numeric comparison decides (`some ord`), otherwise the loop continues
(`none`). -/
def segCmp (x y : Str) : Option Ordering :=
  match parseU32 x, parseU32 y with
  | some a, some b =>
    match natCmp a b with
    | .eq => none
    | ord => some ord
  | _, _ => none

/-- The segment loop of `compare_version_string` (src/download.rs lines
30-44): iterates over `a`'s segments, pairing each with the corresponding
segment of `b` (missing segments of `b` default to `"0"`); returns the first
decisive numeric comparison, `none` if the loop finishes undecided. -/
def cvsLoop : List Str → List Str → Option Ordering
  | [], _ => none
  | aPart :: aRest, bs =>
    match segCmp aPart (bs.headD ['0']) with
    | some o => some o
    | none => cvsLoop aRest bs.tail

/-- `compare_version_string` from src/download.rs lines 26-47. -/
def compare_version_string (a b : Str) : Option Ordering :=
  match cvsLoop (splitOnDot a) (splitOnDot b) with
  | some o => some o
  | none => some (lexCompare a b)

/-- Reference comparator written from the claim's words: corresponding
positional segments are compared numerically, with missing trailing segments
OF EITHER STRING treated as `"0"` (so positions range over the longer of the
two segment lists); the first decisive numeric comparison wins, otherwise the
full original strings are compared lexicographically. -/
def claimVersionCompare (a b : Str) : Option Ordering :=
  let ap := splitOnDot a
  let bp := splitOnDot b
  match (List.range (max ap.length bp.length)).findSome?
      (fun i => segCmp (ap.getD i ['0']) (bp.getD i ['0'])) with
  | some o => some o
  | none => some (lexCompare a b)

/-- Amended reference comparator: like `claimVersionCompare`, but positions
range only over `a`'s segment list — only missing trailing segments of `b`
are treated as `"0"`; positions past the end of `a` are never compared. -/
def amendedVersionCompare (a b : Str) : Option Ordering :=
  let ap := splitOnDot a
  let bp := splitOnDot b
  match (List.range ap.length).findSome?
      (fun i => segCmp (ap.getD i ['0']) (bp.getD i ['0'])) with
  | some o => some o
  | none => some (lexCompare a b)

/-! ### Records and sorting (src/download.rs) -/

/-- `ComponentRecord` from src/download.rs lines 87-93. -/
structure ComponentRecord where
  component : Str
  filename : Str
  url : Str
  version : Str
deriving DecidableEq

/-- The manual `PartialOrd` impl for `ComponentRecord`
(src/download.rs lines 95-102). -/
def ComponentRecord.partialCmp (a b : ComponentRecord) : Option Ordering :=
  match lexCompare a.component b.component with
  | .eq => compare_version_string a.version b.version
  | ord => some ord

/-- `is_macos` from src/download.rs lines 49-51. -/
def is_macos (s : Str) : Bool :=
  s = strL "macos" || s = strL "os-x" || s = strL "mac-os-x"

/-- `ReleaseRecord` from src/download.rs lines 53-58. -/
structure ReleaseRecord where
  entity : Str
  version : Str
  url : Str
deriving DecidableEq

/-- `ReleaseRecord::matches_entity` (src/download.rs lines 75-77). -/
def ReleaseRecord.matches_entity (r : ReleaseRecord) (s : Str) : Bool :=
  s = r.entity || (is_macos s && is_macos r.entity)

/-- The manual `PartialOrd` impl for `ReleaseRecord`
(src/download.rs lines 60-71). -/
def ReleaseRecord.partialCmp (a b : ReleaseRecord) : Option Ordering :=
  if a.matches_entity b.entity then compare_version_string a.version b.version
  else
    match lexCompare a.entity b.entity with
    | .eq => compare_version_string a.version b.version
    | ord => some ord

/-- `PartialOrd::lt` for `ComponentRecord`: the boolean comparison
`slice::sort` consults (Rust's `sort` is a stable sort driven by `T::lt`,
whose default implementation tests `partial_cmp == Some(Less)`). -/
def ComponentRecord.sortLt (a b : ComponentRecord) : Bool :=
  match ComponentRecord.partialCmp a b with
  | some .lt => true
  | _ => false

/-- Stable insertion step: `x` is placed before the first element it is
strictly `lt`-below, after any element it ties with. -/
def insertByLt (lt : α → α → Bool) (x : α) : List α → List α
  | [] => [x]
  | y :: ys => if lt x y then x :: y :: ys else y :: insertByLt lt x ys

/-- Stable sort by a boolean strict comparison; models Rust's
`slice::sort` (a stable sort driven by `T::lt`). -/
def sortByLt (lt : α → α → Bool) (l : List α) : List α :=
  l.foldl (fun acc x => insertByLt lt x acc) []

/-- `str::strip_suffix`. -/
def stripSuffix (s suf : Str) : Option Str :=
  if suf.length ≤ s.length ∧ s.drop (s.length - suf.length) = suf then
    some (s.take (s.length - suf.length))
  else none

/-- `str::split_once('-')`: split at the first `-`. -/
def splitOnceDash : Str → Option (Str × Str)
  | [] => none
  | c :: rest =>
    if c = '-' then some ([], rest)
    else (splitOnceDash rest).map (fun p => (c :: p.1, p.2))

def URL_TARBALLS : Str := strL "https://opensource.apple.com/tarballs"

/-- The record-building loop of `get_component_versions`
(src/download.rs lines 244-266): filenames not ending in `.tar.gz` are
skipped; a kept filename with no `-` is a fatal error; otherwise the version
is the part after the first `-`. -/
def buildComponentRecords (component : Str) : List Str → Except String (List ComponentRecord)
  | [] => .ok []
  | f :: fs =>
    match stripSuffix f (strL ".tar.gz") with
    | none => buildComponentRecords component fs
    | some s =>
      match splitOnceDash s with
      | none => .error "filename does not contain -"
      | some p =>
        (buildComponentRecords component fs).map (fun rest =>
          { component := component
            filename := f
            url := URL_TARBALLS ++ '/' :: component ++ '/' :: f
            version := p.2 } :: rest)

/-- `get_component_versions` (src/download.rs lines 231-271), with the HTML
scraping abstracted to the list of captured filenames: build the records,
then `records.sort()`. -/
def get_component_versions (component : Str) (filenames : List Str) :
    Except String (List ComponentRecord) :=
  (buildComponentRecords component filenames).map (sortByLt ComponentRecord.sortLt)

/-! ### Version comparator lemmas (claim C3) -/

theorem headD_eq_getD_zero (bp : List Str) : bp.headD ['0'] = bp.getD 0 ['0'] := by
  cases bp <;> rfl

theorem head?getD_eq_getD_zero (bp : List Str) : bp.head?.getD ['0'] = bp.getD 0 ['0'] := by
  cases bp <;> rfl

theorem getD_tail (bp : List Str) (i : Nat) :
    bp.tail.getD i ['0'] = bp.getD (i + 1) ['0'] := by
  cases bp <;> simp

/-- The source's segment loop computes exactly the first decisive comparison
over positions `0 .. a_parts.length - 1`. -/
theorem cvsLoop_eq_findSome (ap bp : List Str) :
    cvsLoop ap bp = (List.range ap.length).findSome?
      (fun i => segCmp (ap.getD i ['0']) (bp.getD i ['0'])) := by
  induction ap generalizing bp with
  | nil => simp [cvsLoop]
  | cons a as ih =>
    rw [List.length_cons, List.range_succ_eq_map, List.findSome?_cons]
    rw [List.getD_cons_zero]
    have hstep : cvsLoop (a :: as) bp =
        match segCmp a (bp.getD 0 ['0']) with
        | some o => some o
        | none => cvsLoop as bp.tail := by
      cases bp <;> rfl
    rw [hstep]
    cases hseg : segCmp a (bp.getD 0 ['0']) with
    | some o => rfl
    | none =>
      rw [ih bp.tail, List.findSome?_map]
      dsimp only
      congr 1
      funext i
      simp only [Function.comp_apply, List.getD_cons_succ, getD_tail]

/-- Numeric lexicographic comparison of parsed segment lists (claim side). -/
def numListCompare : List Nat → List Nat → Ordering
  | [], [] => .eq
  | [], _ :: _ => .lt
  | _ :: _, [] => .gt
  | x :: xs, y :: ys =>
    match natCmp x y with
    | .eq => numListCompare xs ys
    | ord => ord

theorem cvsLoop_all_numeric (ap : List Str) (xs : List Nat)
    (ha : List.Forall₂ (fun s n => parseU32 s = some n) ap xs) :
    ∀ bp ys, List.Forall₂ (fun s n => parseU32 s = some n) bp ys →
      xs.length = ys.length →
      cvsLoop ap bp =
        (match numListCompare xs ys with | .eq => none | o => some o) := by
  induction ha with
  | nil =>
    intro bp ys hb hlen
    cases hb with
    | nil => simp [cvsLoop, numListCompare]
    | cons _ _ => simp at hlen
  | @cons a x as xs hax _ ih =>
    intro bp ys hb hlen
    cases hb with
    | nil => simp at hlen
    | @cons b y bs ys hby hbs =>
      simp only [cvsLoop, List.headD_cons, List.tail_cons, segCmp, hax, hby,
        numListCompare]
      cases hcmp : natCmp x y with
      | eq =>
        simp only []
        exact ih bs ys hbs (by simpa using hlen)
      | lt => rfl
      | gt => rfl

theorem natCmp_swap (x y : Nat) : natCmp y x = (natCmp x y).swap := by
  unfold natCmp Ordering.swap
  split_ifs
  all_goals first | rfl | omega

theorem natCmp_eq_iff (x y : Nat) : natCmp x y = .eq ↔ x = y := by
  unfold natCmp
  split_ifs with h1 h2 <;> simp_all
  omega

theorem segCmp_swap (x y : Str) : segCmp y x = (segCmp x y).map Ordering.swap := by
  unfold segCmp
  cases hx : parseU32 x with
  | none => cases hy : parseU32 y <;> rfl
  | some a =>
    cases hy : parseU32 y with
    | none => rfl
    | some b =>
      dsimp only
      rw [natCmp_swap a b]
      cases natCmp a b <;> rfl

theorem segCmp_zero_ne_lt (x : Str) : segCmp x ['0'] ≠ some .lt := by
  unfold segCmp
  have h0 : parseU32 ['0'] = some 0 := rfl
  rw [h0]
  cases parseU32 x with
  | none => simp
  | some a =>
    dsimp only
    unfold natCmp
    rw [if_neg (by omega : ¬a < 0)]
    by_cases h : a = 0
    · rw [if_pos h]; simp
    · rw [if_neg h]; simp

theorem cvsLoop_nil_right_ne_lt (xs : List Str) : cvsLoop xs [] ≠ some .lt := by
  induction xs with
  | nil => simp [cvsLoop]
  | cons x xs ih =>
    have hred : cvsLoop (x :: xs) [] =
        match segCmp x ['0'] with
        | some o => some o
        | none => cvsLoop xs [] := rfl
    rw [hred]
    cases hseg : segCmp x ['0'] with
    | some o =>
      intro hcon
      injection hcon with ho
      subst ho
      exact segCmp_zero_ne_lt x hseg
    | none => exact ih

theorem cvsLoop_swap_lt (ap : List Str) :
    ∀ bp, cvsLoop ap bp = some .lt → cvsLoop bp ap = some .gt := by
  induction ap with
  | nil =>
    intro bp h
    simp [cvsLoop] at h
  | cons a as ih =>
    intro bp h
    cases bp with
    | nil => exact absurd h (cvsLoop_nil_right_ne_lt _)
    | cons b bs =>
      have hred : cvsLoop (a :: as) (b :: bs) =
          match segCmp a b with
          | some o => some o
          | none => cvsLoop as bs := rfl
      have hred2 : cvsLoop (b :: bs) (a :: as) =
          match segCmp b a with
          | some o => some o
          | none => cvsLoop bs as := rfl
      rw [hred] at h
      rw [hred2, segCmp_swap]
      cases hseg : segCmp a b with
      | some o =>
        rw [hseg] at h
        injection h with ho
        subst ho
        rfl
      | none =>
        rw [hseg] at h
        simpa using ih bs h

theorem lexCompare_swap (a : Str) : ∀ b, lexCompare b a = (lexCompare a b).swap := by
  induction a with
  | nil => intro b; cases b <;> rfl
  | cons x xs ih =>
    intro b
    cases b with
    | nil => rfl
    | cons y ys =>
      have hred : lexCompare (y :: ys) (x :: xs) =
          match natCmp y.toNat x.toNat with
          | .eq => lexCompare ys xs
          | ord => ord := rfl
      have hred2 : lexCompare (x :: xs) (y :: ys) =
          match natCmp x.toNat y.toNat with
          | .eq => lexCompare xs ys
          | ord => ord := rfl
      rw [hred, hred2, natCmp_swap]
      cases natCmp x.toNat y.toNat with
      | eq => exact ih ys
      | lt => rfl
      | gt => rfl

theorem lexCompare_eq_iff (a : Str) : ∀ b, lexCompare a b = .eq ↔ a = b := by
  induction a with
  | nil => intro b; cases b <;> simp [lexCompare]
  | cons x xs ih =>
    intro b
    cases b with
    | nil => simp [lexCompare]
    | cons y ys =>
      have hred : lexCompare (x :: xs) (y :: ys) =
          match natCmp x.toNat y.toNat with
          | .eq => lexCompare xs ys
          | ord => ord := rfl
      rw [hred]
      cases hc : natCmp x.toNat y.toNat with
      | eq =>
        have hxy : x = y := Char.ext (UInt32.ext ((natCmp_eq_iff _ _).mp hc))
        subst hxy
        simp [ih ys]
      | lt =>
        have hxy : x ≠ y := by
          intro he
          subst he
          rw [(natCmp_eq_iff x.toNat x.toNat).mpr rfl] at hc
          exact Ordering.noConfusion hc
        simp [hxy]
      | gt =>
        have hxy : x ≠ y := by
          intro he
          subst he
          rw [(natCmp_eq_iff x.toNat x.toNat).mpr rfl] at hc
          exact Ordering.noConfusion hc
        simp [hxy]

theorem compare_version_string_asymm (a b : Str)
    (h : compare_version_string a b = some .lt) :
    compare_version_string b a ≠ some .lt := by
  unfold compare_version_string at h ⊢
  cases hab : cvsLoop (splitOnDot a) (splitOnDot b) with
  | some o =>
    rw [hab] at h
    injection h with ho
    subst ho
    rw [cvsLoop_swap_lt _ _ hab]
    simp
  | none =>
    rw [hab] at h
    injection h with hlex
    cases hba : cvsLoop (splitOnDot b) (splitOnDot a) with
    | some o =>
      intro hcon
      have hcon' : some o = some Ordering.lt := hcon
      injection hcon' with ho
      subst ho
      have := cvsLoop_swap_lt _ _ hba
      rw [hab] at this
      exact Option.noConfusion this
    | none =>
      rw [lexCompare_swap, hlex]
      simp [Ordering.swap]

/-! ### Generic stable sort lemmas -/

theorem insertByLt_perm (lt : α → α → Bool) (x : α) (l : List α) :
    (insertByLt lt x l).Perm (x :: l) := by
  induction l with
  | nil => exact List.Perm.refl _
  | cons y ys ih =>
    unfold insertByLt
    split
    · exact List.Perm.refl _
    · exact (List.Perm.cons y ih).trans (List.Perm.swap x y ys)

theorem sortByLt_perm_aux (lt : α → α → Bool) (l : List α) :
    ∀ acc, (l.foldl (fun acc x => insertByLt lt x acc) acc).Perm (acc ++ l) := by
  induction l with
  | nil => intro acc; simp
  | cons x xs ih =>
    intro acc
    have h1 := ih (insertByLt lt x acc)
    have h2 : (insertByLt lt x acc ++ xs).Perm (acc ++ x :: xs) := by
      have : (insertByLt lt x acc).Perm (x :: acc) := insertByLt_perm lt x acc
      exact (this.append_right xs).trans List.perm_middle.symm
    exact (List.foldl_cons _ _ ▸ h1).trans h2

theorem sortByLt_perm (lt : α → α → Bool) (l : List α) : (sortByLt lt l).Perm l := by
  simpa using sortByLt_perm_aux lt l []

theorem insertByLt_chain (lt : α → α → Bool)
    (hasym : ∀ x y, lt x y = true → lt y x = false) (x : α) :
    ∀ l : List α, l.Chain' (fun p q => lt q p = false) →
      (insertByLt lt x l).Chain' (fun p q => lt q p = false) := by
  intro l
  induction l with
  | nil => intro _; simp [insertByLt]
  | cons y ys ih =>
    intro h
    rw [List.chain'_cons'] at h
    unfold insertByLt
    by_cases hxy : lt x y = true
    · rw [if_pos hxy, List.chain'_cons]
      refine ⟨hasym x y hxy, ?_⟩
      rw [List.chain'_cons']
      exact h
    · rw [if_neg hxy, List.chain'_cons']
      refine ⟨?_, ih h.2⟩
      intro z hz
      have hxyf : lt x y = false := by
        cases hcase : lt x y
        · rfl
        · exact absurd hcase hxy
      rcases ys with _ | ⟨y', ys'⟩
      · simp [insertByLt] at hz
        subst hz
        exact hxyf
      · rw [show insertByLt lt x (y' :: ys') =
            if lt x y' = true then x :: y' :: ys' else y' :: insertByLt lt x ys' from rfl] at hz
        by_cases hxy' : lt x y' = true
        · rw [if_pos hxy'] at hz
          simp at hz
          subst hz
          exact hxyf
        · rw [if_neg hxy'] at hz
          simp at hz
          subst hz
          exact h.1 y' rfl

theorem sortByLt_chain (lt : α → α → Bool)
    (hasym : ∀ x y, lt x y = true → lt y x = false) (l : List α) :
    (sortByLt lt l).Chain' (fun p q => lt q p = false) := by
  unfold sortByLt
  have : ∀ acc, acc.Chain' (fun p q => lt q p = false) →
      (l.foldl (fun acc x => insertByLt lt x acc) acc).Chain' (fun p q => lt q p = false) := by
    induction l with
    | nil => intro acc h; simpa using h
    | cons x xs ih =>
      intro acc h
      exact ih _ (insertByLt_chain lt hasym x acc h)
  exact this [] (by simp)

theorem sortLt_asymm (a b : ComponentRecord)
    (h : ComponentRecord.sortLt a b = true) : ComponentRecord.sortLt b a = false := by
  unfold ComponentRecord.sortLt ComponentRecord.partialCmp at h ⊢
  cases hc : lexCompare a.component b.component with
  | lt =>
    rw [lexCompare_swap, hc]
    rfl
  | gt =>
    rw [hc] at h
    have h' : false = true := h
    exact Bool.noConfusion h'
  | eq =>
    rw [hc] at h
    dsimp only at h
    have hc' : lexCompare b.component a.component = .eq := by
      rw [lexCompare_swap, hc]
      rfl
    rw [hc']
    dsimp only
    cases hv : compare_version_string a.version b.version with
    | none =>
      rw [hv] at h
      have h' : false = true := h
      exact Bool.noConfusion h'
    | some o =>
      rw [hv] at h
      cases o with
      | lt =>
        have hnot := compare_version_string_asymm _ _ hv
        cases hv2 : compare_version_string b.version a.version with
        | none => rfl
        | some o2 =>
          cases o2 with
          | lt => exact absurd hv2 hnot
          | eq => rfl
          | gt => rfl
      | eq =>
        have h' : false = true := h
        exact Bool.noConfusion h'
      | gt =>
        have h' : false = true := h
        exact Bool.noConfusion h'

/-! ### Claim theorems: C3 and C2 -/

/-- **C3, counterexample.** The source comparator does not equal the claim's
reference definition (which zero-fills missing trailing segments of either
string): at `a = "9"`, `b = "09.1"` the code compares no position beyond
`a`'s single segment and falls back to lexicographic comparison, yielding
`gt`, while the claim's reference compares position 1 as `0` vs `1` and
yields `lt`. -/
theorem C3_version_comparator_counterexample :
    compare_version_string (strL "9") (strL "09.1") = some .gt ∧
    claimVersionCompare (strL "9") (strL "09.1") = some .lt ∧
    compare_version_string (strL "9") (strL "09.1") ≠
      claimVersionCompare (strL "9") (strL "09.1") := by
  refine ⟨by decide, by decide, by decide⟩

/-- **C3, amended.** The comparator equals the reference definition in which
positions range over `a`'s segments only (only missing trailing segments of
`b` are treated as `"0"`; positions past the end of `a` are never compared,
the fallback being lexicographic comparison of the full strings).  Moreover,
when both strings split into equally many segments that all parse as
non-negative 32-bit integers, the result is the numeric lexicographic
comparison of the parsed segment vectors (with the string-lexicographic
fallback when all positions are numerically equal) — in particular such
strings are ordered consistent with numeric magnitude, e.g.
`"1.9" < "1.10"`. -/
theorem C3_version_comparator_amended :
    (∀ a b : Str, compare_version_string a b = amendedVersionCompare a b) ∧
    (∀ (a b : Str) (xs ys : List Nat),
      List.Forall₂ (fun s n => parseU32 s = some n) (splitOnDot a) xs →
      List.Forall₂ (fun s n => parseU32 s = some n) (splitOnDot b) ys →
      xs.length = ys.length →
      compare_version_string a b =
        some (match numListCompare xs ys with
          | .eq => lexCompare a b
          | o => o)) := by
  constructor
  · intro a b
    unfold compare_version_string amendedVersionCompare
    rw [cvsLoop_eq_findSome]
  · intro a b xs ys ha hb hlen
    unfold compare_version_string
    rw [cvsLoop_all_numeric _ _ ha _ _ hb hlen]
    cases numListCompare xs ys <;> rfl

/-- Witness for C3: the amended theorem evaluated at `"1.9"` and `"1.10"`. -/
theorem C3_version_comparator_amended_witness :
    compare_version_string (strL "1.9") (strL "1.10") = some .lt := by
  have h := C3_version_comparator_amended.2 (strL "1.9") (strL "1.10") [1, 9] [1, 10]
    (List.Forall₂.cons (by decide) (List.Forall₂.cons (by decide) List.Forall₂.nil))
    (List.Forall₂.cons (by decide) (List.Forall₂.cons (by decide) List.Forall₂.nil))
    rfl
  exact h

/-- **C2.** The ordering used to sort `ComponentRecord`s (and by which
`get_component_versions` orders its result) is: compare component names;
on equal names compare the `version` fields with `compare_version_string`
— the same comparator `ReleaseRecord` uses.  The sorted output is a
permutation of the built records, adjacently ordered by that comparison. -/
theorem C2_component_record_ordering :
    (∀ a b : ComponentRecord, a.component = b.component →
      ComponentRecord.partialCmp a b = compare_version_string a.version b.version) ∧
    (∀ a b : ComponentRecord, a.component ≠ b.component →
      ComponentRecord.partialCmp a b = some (lexCompare a.component b.component)) ∧
    (∀ r s : ReleaseRecord, r.entity = s.entity →
      ReleaseRecord.partialCmp r s = compare_version_string r.version s.version) ∧
    (∀ (c : Str) (fns : List Str) (recs : List ComponentRecord),
      get_component_versions c fns = .ok recs →
      (∃ raw, buildComponentRecords c fns = .ok raw ∧ recs.Perm raw) ∧
      recs.Chain' (fun p q => ComponentRecord.sortLt q p = false)) := by
  refine ⟨?_, ?_, ?_, ?_⟩
  · intro a b hcomp
    unfold ComponentRecord.partialCmp
    rw [hcomp, (lexCompare_eq_iff _ _).mpr rfl]
  · intro a b hcomp
    unfold ComponentRecord.partialCmp
    cases hc : lexCompare a.component b.component with
    | eq => exact absurd ((lexCompare_eq_iff _ _).mp hc) hcomp
    | lt => rfl
    | gt => rfl
  · intro r s hent
    unfold ReleaseRecord.partialCmp ReleaseRecord.matches_entity
    rw [if_pos]
    simp [hent]
  · intro c fns recs hok
    unfold get_component_versions at hok
    cases hbuild : buildComponentRecords c fns with
    | error e =>
      rw [hbuild] at hok
      exact Except.noConfusion hok
    | ok raw =>
      rw [hbuild] at hok
      have hrecs : recs = sortByLt ComponentRecord.sortLt raw := by
        have h' : Except.ok (sortByLt ComponentRecord.sortLt raw) =
            (Except.ok recs : Except String (List ComponentRecord)) := hok
        injection h' with h''
        exact h''.symm
      subst hrecs
      exact ⟨⟨raw, rfl, sortByLt_perm _ raw⟩, sortByLt_chain _ sortLt_asymm raw⟩

/-- Witness for C2: a concrete component listing where numeric version order
(`1.9` before `1.10`) disagrees with lexicographic filename order, sorted as
the claim states. -/
theorem C2_component_record_ordering_witness :
    ∃ recs, get_component_versions (strL "foo")
        [strL "foo-1.10.tar.gz", strL "foo-1.9.tar.gz"] = .ok recs ∧
      recs.Chain' (fun p q => ComponentRecord.sortLt q p = false) ∧
      recs.map (fun r => r.version) = [strL "1.9", strL "1.10"] := by
  refine ⟨_, rfl, ?_, ?_⟩
  · exact (C2_component_record_ordering.2.2.2 (strL "foo")
      [strL "foo-1.10.tar.gz", strL "foo-1.9.tar.gz"] _ rfl).2
  · decide

/-! ### Git object and tar model (src/git.rs) -/

def GIT_TREE_MODE : Nat := 0o40000

/-- Content-addressed git objects: an object's identifier is the object
value itself, so equal content at equal paths yields equal identifiers. -/
inductive GitObj where
  | blob (data : Str)
  | tree (entries : List (Str × GitObj × Nat))

instance : Inhabited GitObj := ⟨.tree []⟩

/-- `git2::TreeBuilder`: an in-progress list of `(name, oid, mode)` entries. -/
abbrev TreeBuilder := List (Str × GitObj × Nat)

/-- `TreeBuilder::insert`: replaces an existing entry of the same name,
otherwise adds the entry. -/
def tbInsert (tb : TreeBuilder) (name : Str) (oid : GitObj) (mode : Nat) : TreeBuilder :=
  if tb.any (fun e => e.1 = name) then
    tb.map (fun e => if e.1 = name then (name, oid, mode) else e)
  else tb ++ [(name, oid, mode)]

/-- `TreeBuilder::write`: finalize the builder into a stored tree object. -/
def tbWrite (tb : TreeBuilder) : GitObj := .tree tb

/-- The `dirs: HashMap<Vec<u8>, TreeBuilder>` of `tar_data_to_tree`,
modelled as an association list in insertion order (the HashMap's iteration
order is arbitrary; all ordering used below is re-established by the
explicit sort). -/
abbrev Dirs := List (Str × TreeBuilder)

def keysOf (d : Dirs) : List Str := d.map (fun e => e.1)

def dirsFind : Dirs → Str → Option TreeBuilder
  | [], _ => none
  | e :: rest, k => if e.1 = k then some e.2 else dirsFind rest k

/-- `dirs.entry(k).or_insert_with(|| repo.treebuilder(None))`: create an
empty builder for `k` unless one exists. -/
def dirsOrInsert (d : Dirs) (k : Str) : Dirs :=
  if k ∈ keysOf d then d else d ++ [(k, [])]

/-- In-place update of the builder stored at an existing key. -/
def dirsModify (d : Dirs) (k : Str) (f : TreeBuilder → TreeBuilder) : Dirs :=
  d.map (fun e => if e.1 = k then (e.1, f e.2) else e)

/-- `dirs.entry(k).or_insert_with(..).insert(name, oid, mode)`. -/
def dirsInsertEntry (d : Dirs) (k name : Str) (oid : GitObj) (mode : Nat) : Dirs :=
  dirsModify (dirsOrInsert d k) k (fun tb => tbInsert tb name oid mode)

/-- One tar entry as handed to `tar_data_to_tree` by the tar reader:
entry type (directory flag, optional link target), raw permission bits,
path bytes and content bytes. -/
structure TarEntry where
  isDir : Bool
  linkName : Option Str
  mode : Nat
  path : Str
  content : Str
deriving DecidableEq

inductive TarError where
  /-- `anyhow!("invalid tar archive mode: {}", original_mode)` -/
  | invalidMode (mode : Nat)
  /-- the `expect`/`panic!` paths of the finalization loop -/
  | logicPanic
deriving DecidableEq

/-- The file-mode decision for non-link, non-directory entries
(src/git.rs lines 43-52). -/
def entryFileMode (original_mode : Nat) : Except TarError Nat :=
  if original_mode &&& 0o111 ≠ 0 then .ok 0o100755
  else if original_mode &&& 0o444 ≠ 0 then .ok 0o100644
  else if original_mode = 0 then .ok 0o100644
  else .error (.invalidMode original_mode)

/-- Index of the first `/` byte (src/git.rs lines 65-77). -/
def firstSlashIdx : Str → Option Nat
  | [] => none
  | c :: rest => if c = '/' then some 0 else (firstSlashIdx rest).map (· + 1)

/-- Index of the last `/` byte (src/git.rs lines 81-93 and 126-131). -/
def lastSlashIdx : Str → Option Nat
  | [] => none
  | c :: rest =>
    match lastSlashIdx rest with
    | some j => some (j + 1)
    | none => if c = '/' then some 0 else none

/-- The sequence of proper ancestor paths `dir[..i]` for each `/` at index
`i` of `dir`, in position order (src/git.rs lines 96-103). -/
def slashAncestors (dir : Str) : List Str :=
  (List.range dir.length).filterMap
    (fun i => if dir.get? i = some '/' then some (dir.take i) else none)

/-- "Ensure parent directories have treebuilders" (src/git.rs lines 96-103). -/
def ensureParents (d : Dirs) (dir : Str) : Dirs :=
  (slashAncestors dir).foldl dirsOrInsert d

/-- Processing of a single tar entry (src/git.rs lines 31-108): skip
directories; links store the target bytes with mode `0o120000`; other
entries map their permission bits through `entryFileMode` (failing the whole
conversion on invalid bits); the blob is written; the leading path segment
is stripped (entries with no `/` are skipped with a diagnostic); the entry
is recorded in its directory's builder, pre-creating ancestor builders. -/
def processEntry (dirs : Dirs) (e : TarEntry) : Except TarError Dirs :=
  if e.isDir then .ok dirs
  else
    match (match e.linkName with
           | some link => Except.ok (0o120000, link)
           | none => (entryFileMode e.mode).map (fun m => (m, e.content))) with
    | .error err => .error err
    | .ok mb =>
      let blobOid := GitObj.blob mb.2
      match firstSlashIdx e.path with
      | none => .ok dirs
      | some i =>
        let rel := e.path.drop (i + 1)
        let df :=
          match lastSlashIdx rel with
          | some j => (rel.take j, rel.drop (j + 1))
          | none => (([] : Str), rel)
        .ok (dirsInsertEntry (ensureParents dirs df.1) df.1 df.2 blobOid mb.1)

def processEntries (entries : List TarEntry) : Except TarError Dirs :=
  entries.foldlM processEntry []

/-- `keys.sort_by(|a, b| b.len().cmp(&a.len()))`: strict comparison driving
the stable sort of finalization keys, longest first. -/
def lenDescLt (a b : Str) : Bool := decide (b.length < a.length)

/-- The finalization loop (src/git.rs lines 120-147): write each builder,
record the resulting tree in its parent's builder (the root returns the
result); `none` models the `expect`/`panic!` paths. -/
def finalizeLoop : List Str → Dirs → Option GitObj
  | [], _ => none
  | k :: rest, dirs =>
    match dirsFind dirs k with
    | none => none
    | some tb =>
      let oid := tbWrite tb
      match lastSlashIdx k with
      | some j =>
        match dirsFind dirs (k.take j) with
        | none => none
        | some _ =>
          finalizeLoop rest (dirsModify dirs (k.take j)
            (fun ptb => tbInsert ptb (k.drop (j + 1)) oid GIT_TREE_MODE))
      | none =>
        if k = [] then some oid
        else
          match dirsFind dirs [] with
          | none => none
          | some _ =>
            finalizeLoop rest (dirsModify dirs [] (fun rtb => tbInsert rtb k oid GIT_TREE_MODE))

/-- `tar_data_to_tree` (src/git.rs lines 21-148), with the gzip/tar decoding
abstracted to the list of decoded entries. -/
def tar_data_to_tree (entries : List TarEntry) : Except TarError GitObj :=
  match processEntries entries with
  | .error e => .error e
  | .ok dirs =>
    let dirs2 := dirsOrInsert dirs []
    match finalizeLoop (sortByLt lenDescLt (keysOf dirs2)) dirs2 with
    | some t => .ok t
    | none => .error .logicPanic

/-! ### Mode-bit lemmas (claims C6, C10, C7) -/

theorem testBit_land_eq_zero (m mask i : Nat) (h : m &&& mask = 0)
    (hm : mask.testBit i = true) : m.testBit i = false := by
  have h0 := congrArg (fun x => Nat.testBit x i) h
  simp only [Nat.testBit_land, Nat.zero_testBit, hm, Bool.and_true] at h0
  exact h0

theorem land_eq_zero_of_bits (m mask : Nat)
    (hi : ∀ i, mask.testBit i = true → m.testBit i = false) : m &&& mask = 0 := by
  apply Nat.eq_of_testBit_eq
  intro i
  rw [Nat.testBit_land, Nat.zero_testBit]
  cases hmask : mask.testBit i with
  | false => simp
  | true => simp [hi i hmask]

theorem bits_of_73 (i : Nat) (h : Nat.testBit 73 i = true) : i = 0 ∨ i = 3 ∨ i = 6 := by
  by_contra hcon
  push_neg at hcon
  rcases Nat.lt_or_ge i 7 with hlt | hge
  · interval_cases i
    all_goals first | exact absurd h (by decide) | omega
  · have h73 : (73 : Nat) < 2 ^ i :=
      lt_of_lt_of_le (by norm_num) (Nat.pow_le_pow_right (by norm_num) hge)
    rw [Nat.testBit_lt_two_pow h73] at h
    exact Bool.noConfusion h

theorem bits_of_292 (i : Nat) (h : Nat.testBit 292 i = true) : i = 2 ∨ i = 5 ∨ i = 8 := by
  by_contra hcon
  push_neg at hcon
  rcases Nat.lt_or_ge i 9 with hlt | hge
  · interval_cases i
    all_goals first | exact absurd h (by decide) | omega
  · have h292 : (292 : Nat) < 2 ^ i :=
      lt_of_lt_of_le (by norm_num) (Nat.pow_le_pow_right (by norm_num) hge)
    rw [Nat.testBit_lt_two_pow h292] at h
    exact Bool.noConfusion h

/-- `m & 0o111 != 0` holds exactly when one of the three execute bits is set. -/
theorem land73_ne_zero_iff (m : Nat) :
    m &&& 73 ≠ 0 ↔ (m.testBit 0 = true ∨ m.testBit 3 = true ∨ m.testBit 6 = true) := by
  constructor
  · intro h
    by_contra hcon
    push_neg at hcon
    apply h
    apply land_eq_zero_of_bits
    intro i hi
    rcases bits_of_73 i hi with rfl | rfl | rfl <;>
      simp_all [Bool.not_eq_true]
  · rintro (h | h | h)
    · intro hz
      have hf := testBit_land_eq_zero m 73 0 hz (by decide)
      rw [h] at hf
      exact Bool.noConfusion hf
    · intro hz
      have hf := testBit_land_eq_zero m 73 3 hz (by decide)
      rw [h] at hf
      exact Bool.noConfusion hf
    · intro hz
      have hf := testBit_land_eq_zero m 73 6 hz (by decide)
      rw [h] at hf
      exact Bool.noConfusion hf

/-- `m & 0o444 != 0` holds exactly when one of the three read bits is set. -/
theorem land292_ne_zero_iff (m : Nat) :
    m &&& 292 ≠ 0 ↔ (m.testBit 2 = true ∨ m.testBit 5 = true ∨ m.testBit 8 = true) := by
  constructor
  · intro h
    by_contra hcon
    push_neg at hcon
    apply h
    apply land_eq_zero_of_bits
    intro i hi
    rcases bits_of_292 i hi with rfl | rfl | rfl <;>
      simp_all [Bool.not_eq_true]
  · rintro (h | h | h)
    · intro hz
      have hf := testBit_land_eq_zero m 292 2 hz (by decide)
      rw [h] at hf
      exact Bool.noConfusion hf
    · intro hz
      have hf := testBit_land_eq_zero m 292 5 hz (by decide)
      rw [h] at hf
      exact Bool.noConfusion hf
    · intro hz
      have hf := testBit_land_eq_zero m 292 8 hz (by decide)
      rw [h] at hf
      exact Bool.noConfusion hf

theorem entryFileMode_error_iff (m : Nat) :
    (∃ e, entryFileMode m = .error e) ↔ (m ≠ 0 ∧ m &&& 73 = 0 ∧ m &&& 292 = 0) := by
  unfold entryFileMode
  by_cases h1 : m &&& 73 ≠ 0
  · rw [if_pos h1]
    simp [h1]
  · rw [if_neg h1]
    push_neg at h1
    by_cases h2 : m &&& 292 ≠ 0
    · rw [if_pos h2]
      simp [h2]
    · rw [if_neg h2]
      push_neg at h2
      by_cases h3 : m = 0
      · rw [if_pos h3]
        simp [h3]
      · rw [if_neg h3]
        simp [h1, h2, h3]

/-- **C6.** Mode mapping for non-link, non-directory entries: executable
(`100755`) iff one of the three execute bits of the raw mode is set;
regular (`100644`) iff no execute bit but a read bit is set or the raw mode
is exactly zero; the conversion fails with the invalid-archive-mode error
iff the raw mode is non-zero with no execute and no read bit — and
`processEntry` errors on such an entry exactly under that condition. -/
theorem C6_mode_mapping :
    (∀ m : Nat,
      (entryFileMode m = .ok 0o100755 ↔
        (m.testBit 0 = true ∨ m.testBit 3 = true ∨ m.testBit 6 = true)) ∧
      (entryFileMode m = .ok 0o100644 ↔
        (¬(m.testBit 0 = true ∨ m.testBit 3 = true ∨ m.testBit 6 = true) ∧
          ((m.testBit 2 = true ∨ m.testBit 5 = true ∨ m.testBit 8 = true) ∨ m = 0))) ∧
      (entryFileMode m = .error (.invalidMode m) ↔
        (m ≠ 0 ∧ ¬(m.testBit 0 = true ∨ m.testBit 3 = true ∨ m.testBit 6 = true) ∧
          ¬(m.testBit 2 = true ∨ m.testBit 5 = true ∨ m.testBit 8 = true)))) ∧
    (∀ (dirs : Dirs) (e : TarEntry), e.isDir = false → e.linkName = none →
      ((∃ err, processEntry dirs e = .error err) ↔
        (e.mode ≠ 0 ∧ ¬(e.mode.testBit 0 = true ∨ e.mode.testBit 3 = true ∨ e.mode.testBit 6 = true) ∧
          ¬(e.mode.testBit 2 = true ∨ e.mode.testBit 5 = true ∨ e.mode.testBit 8 = true)))) := by
  have hmain : ∀ m : Nat,
      (entryFileMode m = .ok 0o100755 ↔
        (m.testBit 0 = true ∨ m.testBit 3 = true ∨ m.testBit 6 = true)) ∧
      (entryFileMode m = .ok 0o100644 ↔
        (¬(m.testBit 0 = true ∨ m.testBit 3 = true ∨ m.testBit 6 = true) ∧
          ((m.testBit 2 = true ∨ m.testBit 5 = true ∨ m.testBit 8 = true) ∨ m = 0))) ∧
      (entryFileMode m = .error (.invalidMode m) ↔
        (m ≠ 0 ∧ ¬(m.testBit 0 = true ∨ m.testBit 3 = true ∨ m.testBit 6 = true) ∧
          ¬(m.testBit 2 = true ∨ m.testBit 5 = true ∨ m.testBit 8 = true))) := by
    intro m
    rw [← land73_ne_zero_iff, ← land292_ne_zero_iff]
    unfold entryFileMode
    by_cases h1 : m &&& 73 ≠ 0
    · rw [if_pos h1]
      simp [h1]
    · rw [if_neg h1]
      push_neg at h1
      by_cases h2 : m &&& 292 ≠ 0
      · rw [if_pos h2]
        simp [h1, h2]
      · rw [if_neg h2]
        push_neg at h2
        by_cases h3 : m = 0
        · rw [if_pos h3]
          simp [h1, h2, h3]
        · rw [if_neg h3]
          simp [h1, h2, h3]
  refine ⟨hmain, ?_⟩
  intro dirs e hdir hlink
  rw [← land73_ne_zero_iff, ← land292_ne_zero_iff]
  simp only [not_ne_iff]
  rw [← entryFileMode_error_iff]
  cases hm : entryFileMode e.mode with
  | error err => simp [processEntry, hdir, hlink, hm, Except.map]
  | ok md =>
    cases hfs : firstSlashIdx e.path with
    | none => simp [processEntry, hdir, hlink, hm, hfs, Except.map]
    | some i => simp [processEntry, hdir, hlink, hm, hfs, Except.map]

/-- Witness for C6: raw mode `0o200` (write-only) is non-zero with no
execute and no read bit, and `processEntry` rejects such an entry. -/
theorem C6_mode_mapping_witness :
    ∃ err, processEntry [] ⟨false, none, 0o200, strL "README", []⟩ = .error err := by
  exact (C6_mode_mapping.2 [] ⟨false, none, 0o200, strL "README", []⟩ rfl rfl).mpr
    (by refine ⟨by decide, ?_, ?_⟩ <;> decide)

/-- **C10.** A tar entry carrying a link name is stored as a link-mode
(`0o120000`) entry whose blob content is exactly the link-target bytes, and
the permission-bit validation is bypassed: processing never fails for such
an entry and is independent of the raw mode value. -/
theorem C10_symlink_bypass :
    (∀ (dirs : Dirs) (e : TarEntry) (l : Str), e.isDir = false → e.linkName = some l →
      ∃ d, processEntry dirs e = .ok d) ∧
    (∀ (dirs : Dirs) (e : TarEntry) (l : Str) (m₁ m₂ : Nat), e.linkName = some l →
      processEntry dirs { e with mode := m₁ } = processEntry dirs { e with mode := m₂ }) ∧
    (tar_data_to_tree [⟨false, some (strL "target"), 0o200, strL "top/link", []⟩] =
      .ok (.tree [(strL "link", .blob (strL "target"), 0o120000)])) := by
  refine ⟨?_, ?_, rfl⟩
  · intro dirs e l hdir hlink
    unfold processEntry
    rw [hdir, hlink]
    simp only [Bool.false_eq_true, if_false]
    cases hfs : firstSlashIdx e.path with
    | none => exact ⟨dirs, rfl⟩
    | some i => exact ⟨_, rfl⟩
  · intro dirs e l m₁ m₂ hlink
    cases hdir : e.isDir with
    | true => simp [processEntry, hdir]
    | false => simp [processEntry, hdir, hlink]

/-- Witness for C10: a link entry with otherwise-invalid raw mode `0o200`
is processed without error. -/
theorem C10_symlink_bypass_witness :
    ∃ d, processEntry [] ⟨false, some (strL "target"), 0o200, strL "top/link", []⟩ = .ok d :=
  C10_symlink_bypass.1 [] ⟨false, some (strL "target"), 0o200, strL "top/link", []⟩
    (strL "target") rfl rfl

theorem firstSlashIdx_append (seg rest : Str) (h : '/' ∉ seg) :
    firstSlashIdx (seg ++ '/' :: rest) = some seg.length := by
  induction seg with
  | nil => simp [firstSlashIdx]
  | cons c cs ih =>
    have h' : '/' ∉ cs := fun hm => h (List.mem_cons_of_mem _ hm)
    have hc : ¬(c = '/') := fun he => h (by rw [he]; exact List.mem_cons_self _ _)
    simp [firstSlashIdx, hc, ih h']

theorem drop_after_seg (seg rest : Str) :
    (seg ++ '/' :: rest).drop (seg.length + 1) = rest := by
  have h1 : seg ++ '/' :: rest = (seg ++ ['/']) ++ rest := by simp
  have h2 : (seg ++ ['/']).length = seg.length + 1 := by simp
  rw [h1, ← h2, List.drop_left]

/-- **C7, counterexample.** An entry whose path contains no separator is
not unconditionally "skipped without failing the conversion": the mode
check precedes the no-separator check, so a separator-free entry with
invalid permission bits (here `0o200`) makes the whole conversion fail. -/
theorem C7_strip_counterexample :
    tar_data_to_tree [⟨false, none, 0o200, strL "README", []⟩] =
      .error (.invalidMode 0o200) := rfl

/-- **C7, amended.** Directory entries are always skipped; an entry whose
path contains no `/` is skipped with a diagnostic and leaves the state
unchanged, provided it is a link or its mode validation succeeds (the mode
check precedes the path check); for placed entries the leading path segment
is stripped and placement is independent of that segment's spelling, so an
archive's contents land at the repository root rather than under the
top-level directory name. -/
theorem C7_strip_leading_segment :
    (∀ (dirs : Dirs) (e : TarEntry), e.isDir = true → processEntry dirs e = .ok dirs) ∧
    (∀ (dirs : Dirs) (e : TarEntry), e.isDir = false → firstSlashIdx e.path = none →
      (e.linkName ≠ none ∨ ∃ m, entryFileMode e.mode = .ok m) →
      processEntry dirs e = .ok dirs) ∧
    (∀ (dirs : Dirs) (e : TarEntry) (seg₁ seg₂ rest : Str),
      '/' ∉ seg₁ → '/' ∉ seg₂ →
      processEntry dirs { e with path := seg₁ ++ '/' :: rest } =
        processEntry dirs { e with path := seg₂ ++ '/' :: rest }) ∧
    (tar_data_to_tree [⟨false, none, 0o644, strL "top/README", strL "hi"⟩] =
      .ok (.tree [(strL "README", .blob (strL "hi"), 0o100644)])) := by
  refine ⟨?_, ?_, ?_, rfl⟩
  · intro dirs e hdir
    simp [processEntry, hdir]
  · intro dirs e hdir hfs hval
    cases hlink : e.linkName with
    | some l => simp [processEntry, hdir, hlink, hfs]
    | none =>
      rcases hval with hne | ⟨m, hm⟩
      · exact absurd hlink hne
      · simp [processEntry, hdir, hlink, hm, hfs, Except.map]
  · intro dirs e seg₁ seg₂ rest h1 h2
    cases hdir : e.isDir with
    | true => simp [processEntry, hdir]
    | false =>
      cases hlink : e.linkName with
      | some l =>
        simp [processEntry, hdir, hlink, firstSlashIdx_append _ _ h1,
          firstSlashIdx_append _ _ h2, drop_after_seg]
      | none =>
        cases hm : entryFileMode e.mode with
        | error err => simp [processEntry, hdir, hlink, hm, Except.map]
        | ok md =>
          simp [processEntry, hdir, hlink, hm, Except.map,
            firstSlashIdx_append _ _ h1, firstSlashIdx_append _ _ h2, drop_after_seg]

/-- Witness for C7: a separator-free entry with valid mode is skipped with
the accumulator state unchanged. -/
theorem C7_strip_leading_segment_witness :
    processEntry [] ⟨false, none, 0o644, strL "README", strL "hi"⟩ = .ok [] :=
  C7_strip_leading_segment.2.1 [] ⟨false, none, 0o644, strL "README", strL "hi"⟩ rfl rfl
    (Or.inr ⟨0o100644, rfl⟩)

/-! ### Accumulator-map lemmas (claims C8, C9) -/

/-- The ancestor-closure invariant of the `dirs` map: together with each
directory key, every ancestor path ending at a `/` of that key is present. -/
def ancestorClosed (ks : List Str) : Prop :=
  ∀ k ∈ ks, ∀ i, k.get? i = some '/' → k.take i ∈ ks

theorem keysOf_modify (d : Dirs) (k : Str) (f : TreeBuilder → TreeBuilder) :
    keysOf (dirsModify d k f) = keysOf d := by
  induction d with
  | nil => rfl
  | cons e rest ih =>
    unfold dirsModify at ih ⊢
    by_cases he : e.1 = k
    · simp [keysOf, he, ih]
      intro a b _
      by_cases h : a = k <;> simp [h]
    · simp [keysOf, he, ih]
      intro a b _
      by_cases h : a = k <;> simp [h]

theorem mem_keysOf_orInsert (d : Dirs) (k x : Str) :
    x ∈ keysOf (dirsOrInsert d k) ↔ x ∈ keysOf d ∨ x = k := by
  unfold dirsOrInsert
  by_cases hk : k ∈ keysOf d
  · rw [if_pos hk]
    constructor
    · exact Or.inl
    · rintro (h | rfl)
      · exact h
      · exact hk
  · rw [if_neg hk]
    simp [keysOf]

theorem nodup_keysOf_orInsert (d : Dirs) (k : Str) (h : (keysOf d).Nodup) :
    (keysOf (dirsOrInsert d k)).Nodup := by
  unfold dirsOrInsert
  by_cases hk : k ∈ keysOf d
  · rw [if_pos hk]
    exact h
  · rw [if_neg hk]
    rw [show keysOf (d ++ [(k, [])]) = keysOf d ++ [k] from by simp [keysOf]]
    exact h.append (List.nodup_singleton k) (by simpa using hk)

theorem mem_keysOf_foldl_orInsert (l : List Str) :
    ∀ (d : Dirs) (x : Str), x ∈ keysOf (l.foldl dirsOrInsert d) ↔ x ∈ keysOf d ∨ x ∈ l := by
  induction l with
  | nil => simp
  | cons k ks ih =>
    intro d x
    rw [List.foldl_cons, ih, mem_keysOf_orInsert]
    simp [List.mem_cons]
    tauto

theorem nodup_keysOf_foldl_orInsert (l : List Str) :
    ∀ d : Dirs, (keysOf d).Nodup → (keysOf (l.foldl dirsOrInsert d)).Nodup := by
  induction l with
  | nil => intro d h; exact h
  | cons k ks ih =>
    intro d h
    rw [List.foldl_cons]
    exact ih _ (nodup_keysOf_orInsert d k h)

theorem mem_slashAncestors (dir x : Str) :
    x ∈ slashAncestors dir ↔ ∃ i, dir.get? i = some '/' ∧ x = dir.take i := by
  unfold slashAncestors
  rw [List.mem_filterMap]
  constructor
  · rintro ⟨i, hi, hx⟩
    by_cases h : dir.get? i = some '/'
    · rw [if_pos h] at hx
      injection hx with hx
      exact ⟨i, h, hx.symm⟩
    · rw [if_neg h] at hx
      exact Option.noConfusion hx
  · rintro ⟨i, h, rfl⟩
    refine ⟨i, ?_, ?_⟩
    · rw [List.mem_range]
      exact (List.get?_eq_some.mp h).1
    · rw [if_pos h]

theorem mem_keysOf_insertEntry (d : Dirs) (k name : Str) (oid : GitObj) (mode : Nat)
    (x : Str) :
    x ∈ keysOf (dirsInsertEntry d k name oid mode) ↔ x ∈ keysOf d ∨ x = k := by
  unfold dirsInsertEntry
  rw [keysOf_modify, mem_keysOf_orInsert]

theorem nodup_keysOf_insertEntry (d : Dirs) (k name : Str) (oid : GitObj) (mode : Nat)
    (h : (keysOf d).Nodup) :
    (keysOf (dirsInsertEntry d k name oid mode)).Nodup := by
  unfold dirsInsertEntry
  rw [keysOf_modify]
  exact nodup_keysOf_orInsert d k h

theorem dirsFind_of_mem (d : Dirs) (k : Str) (h : k ∈ keysOf d) :
    ∃ tb, dirsFind d k = some tb := by
  induction d with
  | nil => simp [keysOf] at h
  | cons e rest ih =>
    unfold dirsFind
    by_cases he : e.1 = k
    · rw [if_pos he]
      exact ⟨e.2, rfl⟩
    · rw [if_neg he]
      apply ih
      rcases (by simpa [keysOf] using h : k = e.1 ∨ k ∈ keysOf rest) with h' | h'
      · exact absurd h'.symm he
      · exact h'

theorem ancestorClosed_orInsert_root (d : Dirs) (hac : ancestorClosed (keysOf d)) :
    ancestorClosed (keysOf (dirsOrInsert d [])) := by
  intro k hk i hki
  rw [mem_keysOf_orInsert] at hk
  rw [mem_keysOf_orInsert]
  rcases hk with hk | rfl
  · exact Or.inl (hac k hk i hki)
  · simp at hki

/-- Every successful entry-processing step either leaves the map unchanged
or records one blob under one directory key after pre-creating that key's
slash-ancestors. -/
theorem processEntry_shape (d d' : Dirs) (e : TarEntry)
    (h : processEntry d e = .ok d') :
    d' = d ∨ ∃ dir name oid mode,
      d' = dirsInsertEntry (ensureParents d dir) dir name oid mode := by
  unfold processEntry at h
  cases hdir : e.isDir with
  | true =>
    rw [hdir] at h
    simp at h
    exact Or.inl h.symm
  | false =>
    rw [hdir] at h
    cases hlink : e.linkName with
    | some l =>
      rw [hlink] at h
      cases hfs : firstSlashIdx e.path with
      | none =>
        rw [hfs] at h
        simp at h
        exact Or.inl h.symm
      | some i =>
        rw [hfs] at h
        simp at h
        exact Or.inr ⟨_, _, _, _, h.symm⟩
    | none =>
      rw [hlink] at h
      cases hm : entryFileMode e.mode with
      | error err =>
        rw [hm] at h
        simp [Except.map] at h
      | ok md =>
        rw [hm] at h
        cases hfs : firstSlashIdx e.path with
        | none =>
          rw [hfs] at h
          simp [Except.map] at h
          exact Or.inl h.symm
        | some i =>
          rw [hfs] at h
          simp [Except.map] at h
          exact Or.inr ⟨_, _, _, _, h.symm⟩

theorem insertShape_inv (d : Dirs) (dir name : Str) (oid : GitObj) (mode : Nat)
    (hnd : (keysOf d).Nodup) (hac : ancestorClosed (keysOf d)) :
    (keysOf (dirsInsertEntry (ensureParents d dir) dir name oid mode)).Nodup ∧
    ancestorClosed (keysOf (dirsInsertEntry (ensureParents d dir) dir name oid mode)) := by
  constructor
  · exact nodup_keysOf_insertEntry _ _ _ _ _ (nodup_keysOf_foldl_orInsert _ _ hnd)
  · intro k hk i hki
    rw [mem_keysOf_insertEntry] at hk
    rw [mem_keysOf_insertEntry]
    rcases hk with hk | rfl
    · unfold ensureParents at hk
      rw [mem_keysOf_foldl_orInsert] at hk
      rcases hk with hk | hk
      · left
        unfold ensureParents
        rw [mem_keysOf_foldl_orInsert]
        exact Or.inl (hac k hk i hki)
      · rw [mem_slashAncestors] at hk
        obtain ⟨j, hj, rfl⟩ := hk
        have hjlen : j < dir.length := (List.get?_eq_some.mp hj).1
        have hilen : i < (dir.take j).length := (List.get?_eq_some.mp hki).1
        have hij : i < j := by
          rw [List.length_take, Nat.min_eq_left (Nat.le_of_lt hjlen)] at hilen
          exact hilen
        have hget : dir.get? i = some '/' := by
          rw [List.get?_eq_getElem?] at hki
          rw [List.getElem?_take_of_lt hij] at hki
          rw [List.get?_eq_getElem?]
          exact hki
        have htake : (dir.take j).take i = dir.take i := by
          rw [List.take_take, Nat.min_eq_left (Nat.le_of_lt hij)]
        rw [htake]
        left
        unfold ensureParents
        rw [mem_keysOf_foldl_orInsert]
        right
        rw [mem_slashAncestors]
        exact ⟨i, hget, rfl⟩
    · left
      unfold ensureParents
      rw [mem_keysOf_foldl_orInsert]
      right
      rw [mem_slashAncestors]
      exact ⟨i, hki, rfl⟩

theorem processEntry_inv (d d' : Dirs) (e : TarEntry) (h : processEntry d e = .ok d')
    (hnd : (keysOf d).Nodup) (hac : ancestorClosed (keysOf d)) :
    (keysOf d').Nodup ∧ ancestorClosed (keysOf d') := by
  rcases processEntry_shape d d' e h with rfl | ⟨dir, name, oid, mode, rfl⟩
  · exact ⟨hnd, hac⟩
  · exact insertShape_inv d dir name oid mode hnd hac

theorem foldlM_processEntry_inv (entries : List TarEntry) :
    ∀ d0 d : Dirs, List.foldlM processEntry d0 entries = .ok d →
      (keysOf d0).Nodup → ancestorClosed (keysOf d0) →
      (keysOf d).Nodup ∧ ancestorClosed (keysOf d) := by
  induction entries with
  | nil =>
    intro d0 d h hnd hac
    have h' : (Except.ok d0 : Except TarError Dirs) = .ok d := h
    injection h' with h''
    subst h''
    exact ⟨hnd, hac⟩
  | cons e es ih =>
    intro d0 d h hnd hac
    cases hp : processEntry d0 e with
    | error err =>
      have h' : (Except.error err : Except TarError Dirs) = .ok d := by
        rw [← h]
        show _ = processEntry d0 e >>= fun d1 => List.foldlM processEntry d1 es
        rw [hp]
        rfl
      exact Except.noConfusion h'
    | ok d1 =>
      have h' : List.foldlM processEntry d1 es = .ok d := by
        rw [← h]
        show _ = processEntry d0 e >>= fun d1 => List.foldlM processEntry d1 es
        rw [hp]
        rfl
      obtain ⟨hnd1, hac1⟩ := processEntry_inv d0 d1 e hp hnd hac
      exact ih d1 d h' hnd1 hac1

theorem processEntries_inv (entries : List TarEntry) (d : Dirs)
    (h : processEntries entries = .ok d) :
    (keysOf d).Nodup ∧ ancestorClosed (keysOf d) := by
  exact foldlM_processEntry_inv entries [] d h List.nodup_nil (by intro k hk; simp [keysOf] at hk)

theorem lastSlashIdx_get (k : Str) :
    ∀ j, lastSlashIdx k = some j → k.get? j = some '/' := by
  induction k with
  | nil => intro j h; simp [lastSlashIdx] at h
  | cons c cs ih =>
    intro j h
    unfold lastSlashIdx at h
    cases hl : lastSlashIdx cs with
    | some j' =>
      rw [hl] at h
      injection h with hj
      subst hj
      exact ih j' hl
    | none =>
      rw [hl] at h
      by_cases hc : c = '/'
      · rw [if_pos hc] at h
        injection h with hj
        subst hj
        simp [hc]
      · rw [if_neg hc] at h
        exact Option.noConfusion h

/-- Totality of the finalization loop: if every listed key is present in the
map, the root key is listed, and the map is parent-closed, then the loop
always returns a tree (none of the `expect`/`panic!` paths is reachable). -/
theorem finalizeLoop_total (L : List Str) :
    ∀ d : Dirs, (∀ k ∈ L, k ∈ keysOf d) → [] ∈ L →
      (∀ k ∈ keysOf d, ∀ j, lastSlashIdx k = some j → k.take j ∈ keysOf d) →
      ∃ t, finalizeLoop L d = some t := by
  induction L with
  | nil =>
    intro d _ hroot _
    simp at hroot
  | cons k rest ih =>
    intro d hsub hroot hpc
    have hk : k ∈ keysOf d := hsub k (List.mem_cons_self _ _)
    obtain ⟨tb, htb⟩ := dirsFind_of_mem d k hk
    cases hls : lastSlashIdx k with
    | some j =>
      have hkne : k ≠ [] := by
        intro he
        subst he
        simp [lastSlashIdx] at hls
      have hp : k.take j ∈ keysOf d := hpc k hk j hls
      obtain ⟨ptb, hptb⟩ := dirsFind_of_mem d (k.take j) hp
      have hred : finalizeLoop (k :: rest) d =
          finalizeLoop rest (dirsModify d (k.take j)
            (fun ptb => tbInsert ptb (k.drop (j + 1)) (tbWrite tb) GIT_TREE_MODE)) := by
        simp [finalizeLoop, htb, hls, hptb]
      rw [hred]
      apply ih
      · intro k' hk'
        rw [keysOf_modify]
        exact hsub k' (List.mem_cons_of_mem _ hk')
      · rcases List.mem_cons.mp hroot with h | h
        · exact absurd h.symm hkne
        · exact h
      · intro k' hk' j' hls'
        rw [keysOf_modify] at hk' ⊢
        exact hpc k' hk' j' hls'
    | none =>
      by_cases hke : k = []
      · subst hke
        exact ⟨tbWrite tb, by simp [finalizeLoop, htb, hls]⟩
      · have hr : [] ∈ keysOf d := hsub [] hroot
        obtain ⟨rtb, hrtb⟩ := dirsFind_of_mem d [] hr
        have hred : finalizeLoop (k :: rest) d =
            finalizeLoop rest (dirsModify d []
              (fun rtb => tbInsert rtb k (tbWrite tb) GIT_TREE_MODE)) := by
          simp [finalizeLoop, htb, hls, hke, hrtb]
        rw [hred]
        apply ih
        · intro k' hk'
          rw [keysOf_modify]
          exact hsub k' (List.mem_cons_of_mem _ hk')
        · rcases List.mem_cons.mp hroot with h | h
          · exact absurd h.symm hke
          · exact h
        · intro k' hk' j' hls'
          rw [keysOf_modify] at hk' ⊢
          exact hpc k' hk' j' hls'

/-- **C8.** Whenever entry processing itself succeeds — in particular for an
archive with zero usable entries — `tar_data_to_tree` returns a defined root
tree: a root accumulator always exists after processing, the finalization
loop returns at the root key, and the trailing panic (and every `expect`)
is unreachable; the empty archive yields the empty tree. -/
theorem C8_root_tree_total :
    (∀ (entries : List TarEntry) (d : Dirs), processEntries entries = .ok d →
      ∃ t, tar_data_to_tree entries = .ok t) ∧
    tar_data_to_tree [] = .ok (.tree []) := by
  constructor
  · intro entries d hok
    obtain ⟨hnd, hac⟩ := processEntries_inv entries d hok
    have hnd2 : (keysOf (dirsOrInsert d [])).Nodup := nodup_keysOf_orInsert d [] hnd
    have hac2 : ancestorClosed (keysOf (dirsOrInsert d [])) := ancestorClosed_orInsert_root d hac
    have hroot2 : [] ∈ keysOf (dirsOrInsert d []) := by
      rw [mem_keysOf_orInsert]
      exact Or.inr rfl
    have hperm := sortByLt_perm lenDescLt (keysOf (dirsOrInsert d []))
    have hsub : ∀ k ∈ sortByLt lenDescLt (keysOf (dirsOrInsert d [])),
        k ∈ keysOf (dirsOrInsert d []) := by
      intro k hkmem
      exact hperm.mem_iff.mp hkmem
    have hrootL : [] ∈ sortByLt lenDescLt (keysOf (dirsOrInsert d [])) :=
      hperm.mem_iff.mpr hroot2
    have hpc : ∀ k ∈ keysOf (dirsOrInsert d []), ∀ j, lastSlashIdx k = some j →
        k.take j ∈ keysOf (dirsOrInsert d []) := by
      intro k hkmem j hls
      exact hac2 k hkmem j (lastSlashIdx_get k j hls)
    obtain ⟨t, ht⟩ := finalizeLoop_total _ _ hsub hrootL hpc
    refine ⟨t, ?_⟩
    unfold tar_data_to_tree
    rw [hok]
    simp only [ht]
  · rfl

/-- Witness for C8: processing the empty archive succeeds, hence a tree is
returned. -/
theorem C8_root_tree_total_witness :
    ∃ t, tar_data_to_tree [] = .ok t :=
  C8_root_tree_total.1 [] [] rfl

theorem lenDescLt_asymm (x y : Str) (h : lenDescLt x y = true) : lenDescLt y x = false := by
  unfold lenDescLt at h ⊢
  simp at h ⊢
  omega

theorem getLast_root (l : List Str) :
    ∀ (_ : l.Nodup) (_ : [] ∈ l)
      (_ : l.Pairwise (fun a b => ¬(a ≠ b ∧ a <+: b))), l.getLast? = some [] := by
  induction l with
  | nil =>
    intro _ h _
    simp at h
  | cons x xs ih =>
    intro hnd hmem hpw
    cases hxs : xs with
    | nil =>
      subst hxs
      have hx : x = [] := by
        rcases List.mem_cons.mp hmem with h | h
        · exact h.symm
        · simp at h
      subst hx
      rfl
    | cons y ys =>
      subst hxs
      have hxne : x ≠ [] := by
        intro he
        subst he
        have hy := (List.pairwise_cons.mp hpw).1 y (List.mem_cons_self _ _)
        have hynil : y = [] := by
          by_contra hyne
          exact hy ⟨fun hne => hyne hne.symm, List.nil_prefix⟩
        subst hynil
        exact (List.nodup_cons.mp hnd).1 (List.mem_cons_self _ _)
      have hmem' : [] ∈ y :: ys := by
        rcases List.mem_cons.mp hmem with h | h
        · exact absurd h.symm hxne
        · exact h
      rw [List.getLast?_cons_cons]
      exact ih (List.nodup_cons.mp hnd).2 hmem' (List.pairwise_cons.mp hpw).2

/-- **C9.** After processing any entries: the accumulator map has one entry
per directory path (no duplicate keys), every slash-ancestor of a present
path is present, and the finalization key order is non-increasing in length
— hence no path is finalized before any of its strict descendants (no key
is a strict ancestor of a later key), and the root (empty path) comes
last. -/
theorem C9_bottom_up_finalization :
    ∀ (entries : List TarEntry) (d : Dirs), processEntries entries = .ok d →
      (keysOf (dirsOrInsert d [])).Nodup ∧
      ancestorClosed (keysOf (dirsOrInsert d [])) ∧
      (sortByLt lenDescLt (keysOf (dirsOrInsert d []))).Pairwise
        (fun a b => b.length ≤ a.length) ∧
      (sortByLt lenDescLt (keysOf (dirsOrInsert d []))).Pairwise
        (fun a b => ¬(a ≠ b ∧ a <+: b)) ∧
      (sortByLt lenDescLt (keysOf (dirsOrInsert d []))).getLast? = some [] := by
  intro entries d hok
  obtain ⟨hnd, hac⟩ := processEntries_inv entries d hok
  have hnd2 : (keysOf (dirsOrInsert d [])).Nodup := nodup_keysOf_orInsert d [] hnd
  have hac2 : ancestorClosed (keysOf (dirsOrInsert d [])) := ancestorClosed_orInsert_root d hac
  have hchain := sortByLt_chain lenDescLt lenDescLt_asymm (keysOf (dirsOrInsert d []))
  have hchain' : (sortByLt lenDescLt (keysOf (dirsOrInsert d []))).Chain'
      (fun a b => b.length ≤ a.length) := by
    refine hchain.imp ?_
    intro a b hab
    unfold lenDescLt at hab
    simp at hab
    exact hab
  haveI : IsTrans Str (fun a b => b.length ≤ a.length) :=
    ⟨fun _ _ _ h1 h2 => le_trans h2 h1⟩
  have hpw : (sortByLt lenDescLt (keysOf (dirsOrInsert d []))).Pairwise
      (fun a b => b.length ≤ a.length) := List.chain'_iff_pairwise.mp hchain'
  have hpw2 : (sortByLt lenDescLt (keysOf (dirsOrInsert d []))).Pairwise
      (fun a b => ¬(a ≠ b ∧ a <+: b)) := by
    refine hpw.imp ?_
    intro a b hab
    rintro ⟨hne, hpre⟩
    have hlen : a.length = b.length := le_antisymm hpre.length_le hab
    exact hne (hpre.eq_of_length hlen)
  have hperm := sortByLt_perm lenDescLt (keysOf (dirsOrInsert d []))
  have hndL : (sortByLt lenDescLt (keysOf (dirsOrInsert d []))).Nodup :=
    hperm.nodup_iff.mpr hnd2
  have hrootL : [] ∈ sortByLt lenDescLt (keysOf (dirsOrInsert d [])) :=
    hperm.mem_iff.mpr (by rw [mem_keysOf_orInsert]; exact Or.inr rfl)
  exact ⟨hnd2, hac2, hpw, hpw2, getLast_root _ hndL hrootL hpw2⟩

/-- Witness for C9: the invariants evaluated on a two-file archive with
nested directories. -/
theorem C9_bottom_up_finalization_witness :
    ∃ d, processEntries
        [⟨false, none, 0o644, strL "top/src/deep/main.c", strL "c"⟩,
         ⟨false, none, 0o644, strL "top/README", strL "hi"⟩] = .ok d ∧
      (sortByLt lenDescLt (keysOf (dirsOrInsert d []))).getLast? = some [] := by
  refine ⟨_, rfl, ?_⟩
  exact (C9_bottom_up_finalization
      [⟨false, none, 0o644, strL "top/src/deep/main.c", strL "c"⟩,
       ⟨false, none, 0o644, strL "top/README", strL "hi"⟩] _ rfl).2.2.2.2

/-! ### Repository history model (src/git.rs lines 150-424) -/

/-- A commit object, content-addressed like `GitObj`: identity is structural
equality of message, tree and parent chain. -/
inductive Commit where
  | mk (message : Str) (tree : GitObj) (parents : List Commit)

def Commit.message : Commit → Str
  | .mk m _ _ => m

def Commit.tree : Commit → GitObj
  | .mk _ t _ => t

def Commit.parents : Commit → List Commit
  | .mk _ _ ps => ps

/-- Generic association-list lookup (string-keyed maps). -/
def assocFind : List (Str × α) → Str → Option α
  | [], _ => none
  | e :: rest, k => if e.1 = k then some e.2 else assocFind rest k

/-- `repo.tag(name, commit, .., force: true)`: overwrite a same-named tag,
else create it. -/
def tagInsert (tags : List (Str × Commit)) (name : Str) (c : Commit) :
    List (Str × Commit) :=
  if tags.any (fun t => t.1 = name) then
    tags.map (fun t => if t.1 = name then (name, c) else t)
  else tags ++ [(name, c)]

/-- `seen_trees.insert(url, oid)` (HashMap insert: overwrite or add). -/
def cacheInsert (seen : List (Str × GitObj)) (url : Str) (t : GitObj) :
    List (Str × GitObj) :=
  if seen.any (fun e => e.1 = url) then
    seen.map (fun e => if e.1 = url then (url, t) else e)
  else seen ++ [(url, t)]

inductive RunError where
  | transport (url : Str)
  | tar (e : TarError)

/-- Repository state accumulated by `create_component_repository`. -/
structure CompState where
  commits : List Commit
  tags : List (Str × Commit)
  parentCommit : Option Commit

/-- The commit message `format!("{} {}\n\nDownloaded from {}\n", ..)`. -/
def commitMsgComponent (r : ComponentRecord) : Str :=
  r.component ++ ' ' :: r.version ++ strL "\n\nDownloaded from " ++ r.url ++ ['\n']

/-- One iteration of the version loop of `create_component_repository`
(src/git.rs lines 205-248): fetch the tarball (failure aborts), build its
tree (failure aborts), create the commit chained to the previous one, tag it
with the version (force), and advance the parent. -/
def processRecord (fetchC : ComponentRecord → Option (List TarEntry)) (st : CompState)
    (r : ComponentRecord) : Except RunError CompState :=
  match fetchC r with
  | none => .error (.transport r.url)
  | some entries =>
    match tar_data_to_tree entries with
    | .error e => .error (.tar e)
    | .ok treeOid =>
      let parents := match st.parentCommit with
        | some p => [p]
        | none => []
      let commit := Commit.mk (commitMsgComponent r) treeOid parents
      .ok ⟨st.commits ++ [commit], tagInsert st.tags r.version commit, some commit⟩

/-- `create_component_repository` (src/git.rs lines 175-254), with metadata
and transport abstracted: fold the version records over an initially empty
repository.  (The final branch update of the working copy is outside the
commit/tag state modelled here.) -/
def create_component_repository (fetchC : ComponentRecord → Option (List TarEntry))
    (records : List ComponentRecord) : Except RunError CompState :=
  List.foldlM (processRecord fetchC) ⟨[], [], none⟩ records

/-- `ReleaseComponentRecord` from src/download.rs lines 80-85. -/
structure ReleaseComponentRecord where
  entity : Str
  component : Str
  url : Str
deriving DecidableEq

/-- One release version together with its component list (the data
`create_release_repository` obtains from the metadata source). -/
structure ReleaseVersionInput where
  entity : Str
  version : Str
  components : List ReleaseComponentRecord
deriving DecidableEq

/-- Repository state accumulated by `create_release_repository`, including
the dedup cache (`seen_trees`) and an instrumentation log of every archive
URL handed to the fetcher. -/
structure RelState where
  seenTrees : List (Str × GitObj)
  commits : List Commit
  tags : List (Str × Commit)
  parentCommit : Option Commit
  fetchLog : List Str

/-- `import_release_component` (src/git.rs lines 286-313): a download
failure is caught, logged and reported as `none` (component skipped); a
conversion failure propagates as an error. -/
def import_release_component (fetch : Str → Option (List TarEntry))
    (c : ReleaseComponentRecord) :
    Except TarError (Option (ReleaseComponentRecord × GitObj)) :=
  match fetch c.url with
  | none => .ok none
  | some entries =>
    match tar_data_to_tree entries with
    | .error e => .error e
    | .ok t => .ok (some (c, t))

/-- One step of the per-component pass of the version loop
(src/git.rs lines 361-368). -/
def relCacheStep (seen : List (Str × GitObj))
    (acc : TreeBuilder × List ReleaseComponentRecord) (c : ReleaseComponentRecord) :
    TreeBuilder × List ReleaseComponentRecord :=
  match assocFind seen c.url with
  | some t => (tbInsert acc.1 c.component t GIT_TREE_MODE, acc.2)
  | none => (acc.1, acc.2 ++ [c])

/-- The per-component pass of the version loop (src/git.rs lines 361-368):
components whose URL is cached go straight into the root builder; the rest
are collected in `missing`, in order. -/
def relCachePass (seen : List (Str × GitObj)) (components : List ReleaseComponentRecord) :
    TreeBuilder × List ReleaseComponentRecord :=
  components.foldl (relCacheStep seen)
    (([] : TreeBuilder), ([] : List ReleaseComponentRecord))

/-- The result-consuming loop after `join_all` (src/git.rs lines 370-381):
the first error aborts (`fs?`); a skipped component contributes nothing; a
successful import is recorded in the dedup cache and the root builder. -/
def relResultsFold :
    List (Except TarError (Option (ReleaseComponentRecord × GitObj))) →
    TreeBuilder → List (Str × GitObj) →
    Except TarError (TreeBuilder × List (Str × GitObj))
  | [], rb, seen => .ok (rb, seen)
  | r :: rest, rb, seen =>
    match r with
    | .error e => .error e
    | .ok none => relResultsFold rest rb seen
    | .ok (some (c, t)) =>
      relResultsFold rest (tbInsert rb c.component t GIT_TREE_MODE)
        (cacheInsert seen c.url t)

/-- One iteration of the version loop of `create_release_repository`
(src/git.rs lines 332-417).  All `missing` components are fetched (the
`join_all` batch — hence each missing URL enters the fetch log regardless of
other components' outcomes), then the results are folded, the version tree
written, the commit created and tagged. -/
def processVersion (fetch : Str → Option (List TarEntry)) (st : RelState)
    (v : ReleaseVersionInput) : Except TarError RelState :=
  let pass := relCachePass st.seenTrees v.components
  let results := pass.2.map (fun c => import_release_component fetch c)
  let log := pass.2.map (fun c => c.url)
  match relResultsFold results pass.1 st.seenTrees with
  | .error e => .error e
  | .ok rs =>
    let treeOid := tbWrite rs.1
    let parents := match st.parentCommit with
      | some p => [p]
      | none => []
    let commit := Commit.mk (v.entity ++ ' ' :: v.version) treeOid parents
    .ok ⟨rs.2, st.commits ++ [commit], tagInsert st.tags v.version commit,
         some commit, st.fetchLog ++ log⟩

/-- `create_release_repository` (src/git.rs lines 315-424), with metadata
and transport abstracted: fold the releases' versions over an initially
empty repository and empty dedup cache. -/
def create_release_repository (fetch : Str → Option (List TarEntry))
    (versions : List ReleaseVersionInput) : Except TarError RelState :=
  List.foldlM (processVersion fetch) ⟨[], [], [], none, []⟩ versions

/-! ### Commit-chain lemmas (claim C4) -/

/-- The parent linkage of a commit chain hanging off parent `p`: the first
commit's parent list is `[p]` (or empty when `p = none`), and each later
commit's parent list is exactly the previous commit. -/
def chainFrom : Option Commit → List Commit → Prop
  | _, [] => True
  | p, c :: cs =>
    (c.parents = match p with | some q => [q] | none => []) ∧ chainFrom (some c) cs

/-- Each commit carries the tree built from its own record's archive, and
the commit message for that record. -/
def treesMatch (fetchC : ComponentRecord → Option (List TarEntry)) :
    List ComponentRecord → List Commit → Prop
  | [], [] => True
  | r :: rs, c :: cs =>
    (∃ entries, fetchC r = some entries ∧ tar_data_to_tree entries = .ok c.tree ∧
      c.message = commitMsgComponent r) ∧ treesMatch fetchC rs cs
  | _, _ => False

theorem tagInsert_append (tags : List (Str × Commit)) (name : Str) (c : Commit)
    (h : name ∉ tags.map (fun t => t.1)) :
    tagInsert tags name c = tags ++ [(name, c)] := by
  unfold tagInsert
  rw [if_neg]
  intro hany
  rw [List.any_eq_true] at hany
  obtain ⟨t, ht, hte⟩ := hany
  apply h
  rw [List.mem_map]
  exact ⟨t, ht, by simpa using hte⟩

theorem comp_run_fold (fetchC : ComponentRecord → Option (List TarEntry))
    (records : List ComponentRecord) :
    ∀ st0 st : CompState,
      List.foldlM (processRecord fetchC) st0 records = .ok st →
      (records.map (fun r => r.version)).Nodup →
      (∀ v ∈ records.map (fun r => r.version), v ∉ st0.tags.map (fun t => t.1)) →
      ∃ newCommits : List Commit,
        st.commits = st0.commits ++ newCommits ∧
        newCommits.length = records.length ∧
        st.tags = st0.tags ++ List.zip (records.map (fun r => r.version)) newCommits ∧
        chainFrom st0.parentCommit newCommits ∧
        treesMatch fetchC records newCommits ∧
        (∀ x, newCommits.getLast? = some x → st.parentCommit = some x) ∧
        (newCommits = [] → st.parentCommit = st0.parentCommit) := by
  induction records with
  | nil =>
    intro st0 st h _ _
    have h' : (Except.ok st0 : Except RunError CompState) = .ok st := h
    injection h' with h''
    subst h''
    exact ⟨[], by simp, rfl, by simp [List.zip], trivial, trivial, by simp, fun _ => rfl⟩
  | cons r rs ih =>
    intro st0 st h hnd hfree
    cases hp : processRecord fetchC st0 r with
    | error e =>
      have h' : (Except.error e : Except RunError CompState) = .ok st := by
        rw [← h]
        show _ = processRecord fetchC st0 r >>= fun st1 => List.foldlM (processRecord fetchC) st1 rs
        rw [hp]
        rfl
      exact Except.noConfusion h'
    | ok st1 =>
      have h' : List.foldlM (processRecord fetchC) st1 rs = .ok st := by
        have hc : List.foldlM (processRecord fetchC) st0 (r :: rs) =
            processRecord fetchC st0 r >>= fun s => List.foldlM (processRecord fetchC) s rs := rfl
        rw [hc, hp] at h
        exact h
      have hnd' : r.version ∉ List.map (fun x => x.version) rs ∧
          (List.map (fun x => x.version) rs).Nodup := by
        rw [List.map_cons, List.nodup_cons] at hnd
        exact hnd
      cases hf : fetchC r with
      | none =>
        simp only [processRecord, hf] at hp
        exact Except.noConfusion hp
      | some entries =>
        cases ht : tar_data_to_tree entries with
        | error e =>
          simp only [processRecord, hf, ht] at hp
          exact Except.noConfusion hp
        | ok treeOid =>
          simp only [processRecord, hf, ht, Except.ok.injEq] at hp
          subst hp
          have hfreehead : r.version ∉ st0.tags.map (fun t => t.1) :=
            hfree r.version (by simp)
          have htagIns : tagInsert st0.tags r.version
              (Commit.mk (commitMsgComponent r) treeOid
                (match st0.parentCommit with | some p => [p] | none => [])) =
              st0.tags ++ [(r.version,
                Commit.mk (commitMsgComponent r) treeOid
                  (match st0.parentCommit with | some p => [p] | none => []))] :=
            tagInsert_append _ _ _ hfreehead
          obtain ⟨new', hcom, hlen, htags, hchain, htrees, hparlast, hparnil⟩ :=
            ih _ st h' hnd'.2 (by
              intro v hv
              simp only [htagIns]
              rw [List.map_append, List.mem_append]
              rintro (hin | hin)
              · exact hfree v (by simp only [List.map_cons]; exact List.mem_cons_of_mem _ hv) hin
              · simp at hin
                subst hin
                exact hnd'.1 hv)
          refine ⟨Commit.mk (commitMsgComponent r) treeOid
              (match st0.parentCommit with | some p => [p] | none => []) :: new',
            ?_, ?_, ?_, ?_, ?_, ?_, ?_⟩
          · rw [hcom]
            simp
          · simp [hlen]
          · rw [htags]
            simp only [htagIns]
            simp [List.zip_cons_cons]
          · exact ⟨rfl, hchain⟩
          · exact ⟨⟨entries, hf, ht, rfl⟩, htrees⟩
          · intro x hx
            cases hnew : new' with
            | nil =>
              subst hnew
              simp at hx
              subst hx
              exact hparnil rfl
            | cons d ds =>
              subst hnew
              rw [List.getLast?_cons_cons] at hx
              exact hparlast x hx
          · intro habs
            exact List.noConfusion habs

/-- **C4, counterexample.** Two successfully processed versions with the
same version string produce two commits but only one tag: tag creation
overwrites the same-named tag, so "exactly N tags" fails when version
strings repeat. -/
theorem C4_commit_chain_counterexample :
    ∃ st, create_component_repository (fun _ => some [])
        [⟨strL "foo", strL "foo-1.0.tar.gz", strL "u1", strL "1.0"⟩,
         ⟨strL "foo", strL "bar-1.0.tar.gz", strL "u2", strL "1.0"⟩] = .ok st ∧
      st.commits.length = 2 ∧ st.tags.length = 1 :=
  ⟨_, rfl, rfl, rfl⟩

/-- **C4, amended.** For a fully successful run over records whose version
strings are pairwise distinct: exactly N commits, the first with an empty
parent list and each later one with exactly one parent equal to the
previous commit, each holding the tree built from its own record's archive;
and exactly N tags, named exactly the version strings, each pointing at the
corresponding commit (the tag list is the version-strings-to-commits zip). -/
theorem C4_commit_chain_amended :
    ∀ (fetchC : ComponentRecord → Option (List TarEntry)) (records : List ComponentRecord)
      (st : CompState),
      create_component_repository fetchC records = .ok st →
      (records.map (fun r => r.version)).Nodup →
      st.commits.length = records.length ∧
      chainFrom none st.commits ∧
      treesMatch fetchC records st.commits ∧
      st.tags = List.zip (records.map (fun r => r.version)) st.commits ∧
      st.tags.length = records.length := by
  intro fetchC records st h hnd
  obtain ⟨newCommits, hcom, hlen, htags, hchain, htrees, -, -⟩ :=
    comp_run_fold fetchC records ⟨[], [], none⟩ st h hnd (by simp)
  have hcom' : st.commits = newCommits := by simpa using hcom
  subst hcom'
  have htags' : st.tags = List.zip (records.map (fun r => r.version)) st.commits := by
    simpa using htags
  refine ⟨hlen, by exact hchain, htrees, htags', ?_⟩
  rw [htags', List.length_zip, List.length_map, hlen]
  omega

/-- Witness for C4: a two-version run with distinct versions `1.0`, `1.1`. -/
theorem C4_commit_chain_amended_witness :
    ∃ st, create_component_repository (fun _ => some [])
        [⟨strL "foo", strL "foo-1.0.tar.gz", strL "u1", strL "1.0"⟩,
         ⟨strL "foo", strL "foo-1.1.tar.gz", strL "u2", strL "1.1"⟩] = .ok st ∧
      st.commits.length = 2 ∧ chainFrom none st.commits ∧ st.tags.length = 2 := by
  obtain ⟨hlen, hchain, -, -, htlen⟩ :=
    C4_commit_chain_amended (fun _ => some [])
      [⟨strL "foo", strL "foo-1.0.tar.gz", strL "u1", strL "1.0"⟩,
       ⟨strL "foo", strL "foo-1.1.tar.gz", strL "u2", strL "1.1"⟩] _ rfl (by decide)
  exact ⟨_, rfl, hlen, hchain, htlen⟩

/-! ### Dedup-cache and version-tree lemmas (claims C1, C5) -/

/-- The names of a tree builder's entries. -/
def tbNames (tb : TreeBuilder) : List Str := tb.map (fun e => e.1)

/-- The URLs present in the dedup cache. -/
def urlKeys (seen : List (Str × GitObj)) : List Str := seen.map (fun e => e.1)

/-- A tree object contains an entry of the given name. -/
def treeHasName : GitObj → Str → Prop
  | .blob _, _ => False
  | .tree es, n => n ∈ es.map (fun e => e.1)

/-- The cache-soundness invariant: every cached tree is the conversion of a
successful fetch of its key URL. -/
def cacheInv (fetch : Str → Option (List TarEntry)) (seen : List (Str × GitObj)) : Prop :=
  ∀ u t0, (u, t0) ∈ seen → ∃ e, fetch u = some e ∧ tar_data_to_tree e = .ok t0

theorem mem_tbNames_insert (tb : TreeBuilder) (name : Str) (oid : GitObj) (mode : Nat)
    (x : Str) :
    x ∈ tbNames (tbInsert tb name oid mode) ↔ x ∈ tbNames tb ∨ x = name := by
  unfold tbInsert
  by_cases hany : tb.any (fun e => e.1 = name)
  · rw [if_pos hany]
    have hnames : tbNames (tb.map (fun e => if e.1 = name then (name, oid, mode) else e)) =
        tbNames tb := by
      unfold tbNames
      rw [List.map_map]
      apply List.map_congr_left
      intro e _
      by_cases he : e.1 = name
      · simp [he]
      · simp [he]
    rw [hnames]
    constructor
    · exact Or.inl
    · rintro (h | rfl)
      · exact h
      · rw [List.any_eq_true] at hany
        obtain ⟨e, he, hee⟩ := hany
        unfold tbNames
        rw [List.mem_map]
        exact ⟨e, he, by simpa using hee⟩
  · rw [if_neg hany]
    unfold tbNames
    simp

theorem mem_urlKeys_cacheInsert (seen : List (Str × GitObj)) (url : Str) (t : GitObj)
    (x : Str) :
    x ∈ urlKeys (cacheInsert seen url t) ↔ x ∈ urlKeys seen ∨ x = url := by
  unfold cacheInsert
  by_cases hany : seen.any (fun e => e.1 = url)
  · rw [if_pos hany]
    have hkeys : urlKeys (seen.map (fun e => if e.1 = url then (url, t) else e)) =
        urlKeys seen := by
      unfold urlKeys
      rw [List.map_map]
      apply List.map_congr_left
      intro e _
      by_cases he : e.1 = url
      · simp [he]
      · simp [he]
    rw [hkeys]
    constructor
    · exact Or.inl
    · rintro (h | rfl)
      · exact h
      · rw [List.any_eq_true] at hany
        obtain ⟨e, he, hee⟩ := hany
        unfold urlKeys
        rw [List.mem_map]
        exact ⟨e, he, by simpa using hee⟩
  · rw [if_neg hany]
    unfold urlKeys
    simp

theorem mem_pair_cacheInsert (seen : List (Str × GitObj)) (url : Str) (t : GitObj)
    (u : Str) (t0 : GitObj) (h : (u, t0) ∈ cacheInsert seen url t) :
    (u, t0) ∈ seen ∨ (u = url ∧ t0 = t) := by
  unfold cacheInsert at h
  by_cases hany : seen.any (fun e => e.1 = url)
  · rw [if_pos hany] at h
    rw [List.mem_map] at h
    obtain ⟨e, he, hee⟩ := h
    by_cases hcase : e.1 = url
    · rw [if_pos hcase] at hee
      right
      exact ⟨congrArg Prod.fst hee.symm, congrArg Prod.snd hee.symm⟩
    · rw [if_neg hcase] at hee
      left
      rw [hee] at he
      exact he
  · rw [if_neg hany] at h
    rw [List.mem_append] at h
    rcases h with h | h
    · exact Or.inl h
    · right
      simp at h
      exact h

theorem assocFind_some_mem [Inhabited α] (l : List (Str × α)) (k : Str) (x : α)
    (h : assocFind l k = some x) : (k, x) ∈ l := by
  induction l with
  | nil => simp [assocFind] at h
  | cons e rest ih =>
    unfold assocFind at h
    by_cases he : e.1 = k
    · rw [if_pos he] at h
      injection h with hx
      subst hx
      subst he
      exact List.mem_cons_self _ _
    · rw [if_neg he] at h
      exact List.mem_cons_of_mem _ (ih h)

theorem assocFind_isSome_iff [Inhabited α] (l : List (Str × α)) (k : Str) :
    (assocFind l k).isSome = true ↔ k ∈ l.map (fun e => e.1) := by
  induction l with
  | nil => simp [assocFind]
  | cons e rest ih =>
    unfold assocFind
    by_cases he : e.1 = k
    · rw [if_pos he]
      simp [he.symm]
    · rw [if_neg he]
      rw [ih]
      simp [List.mem_cons]
      intro hke
      exact absurd hke.symm he

theorem relCachePass_snd (seen : List (Str × GitObj)) (comps : List ReleaseComponentRecord) :
    (relCachePass seen comps).2 =
      comps.filter (fun c => (assocFind seen c.url).isNone) := by
  suffices h : ∀ acc : TreeBuilder × List ReleaseComponentRecord,
      (comps.foldl (relCacheStep seen) acc).2 =
        acc.2 ++ comps.filter (fun c => (assocFind seen c.url).isNone) by
    simpa [relCachePass] using h ([], [])
  induction comps with
  | nil => intro acc; simp
  | cons c cs ih =>
    intro acc
    rw [List.foldl_cons]
    cases hc : assocFind seen c.url with
    | some t =>
      rw [show relCacheStep seen acc c = (tbInsert acc.1 c.component t GIT_TREE_MODE, acc.2)
          from by simp [relCacheStep, hc]]
      rw [ih]
      simp [List.filter_cons, hc]
    | none =>
      rw [show relCacheStep seen acc c = (acc.1, acc.2 ++ [c])
          from by simp [relCacheStep, hc]]
      rw [ih]
      simp [List.filter_cons, hc]

theorem relCachePass_fst_names (seen : List (Str × GitObj))
    (comps : List ReleaseComponentRecord) (n : Str) :
    n ∈ tbNames (relCachePass seen comps).1 ↔
      ∃ c ∈ comps, c.component = n ∧ (assocFind seen c.url).isSome = true := by
  suffices h : ∀ acc : TreeBuilder × List ReleaseComponentRecord,
      (n ∈ tbNames (comps.foldl (relCacheStep seen) acc).1 ↔
        n ∈ tbNames acc.1 ∨ ∃ c ∈ comps, c.component = n ∧ (assocFind seen c.url).isSome = true) by
    have := h ([], [])
    simpa [relCachePass, tbNames] using this
  induction comps with
  | nil => intro acc; simp
  | cons c cs ih =>
    intro acc
    rw [List.foldl_cons]
    cases hc : assocFind seen c.url with
    | some t =>
      rw [show relCacheStep seen acc c = (tbInsert acc.1 c.component t GIT_TREE_MODE, acc.2)
          from by simp [relCacheStep, hc]]
      rw [ih]
      rw [mem_tbNames_insert]
      constructor
      · rintro ((h | rfl) | ⟨c', hc', hcn, hs⟩)
        · exact Or.inl h
        · exact Or.inr ⟨c, List.mem_cons_self _ _, rfl, by simp [hc]⟩
        · exact Or.inr ⟨c', List.mem_cons_of_mem _ hc', hcn, hs⟩
      · rintro (h | ⟨c', hc', hcn, hs⟩)
        · exact Or.inl (Or.inl h)
        · rcases List.mem_cons.mp hc' with rfl | hc''
          · exact Or.inl (Or.inr hcn.symm)
          · exact Or.inr ⟨c', hc'', hcn, hs⟩
    | none =>
      rw [show relCacheStep seen acc c = (acc.1, acc.2 ++ [c])
          from by simp [relCacheStep, hc]]
      rw [ih]
      constructor
      · rintro (h | ⟨c', hc', hcn, hs⟩)
        · exact Or.inl h
        · exact Or.inr ⟨c', List.mem_cons_of_mem _ hc', hcn, hs⟩
      · rintro (h | ⟨c', hc', hcn, hs⟩)
        · exact Or.inl h
        · rcases List.mem_cons.mp hc' with rfl | hc''
          · rw [hc] at hs
            exact Bool.noConfusion hs
          · exact Or.inr ⟨c', hc'', hcn, hs⟩

theorem import_some_inv (fetch : Str → Option (List TarEntry))
    (c c' : ReleaseComponentRecord) (t : GitObj)
    (h : import_release_component fetch c = .ok (some (c', t))) :
    c' = c ∧ ∃ e, fetch c.url = some e ∧ tar_data_to_tree e = .ok t := by
  cases hf : fetch c.url with
  | none => simp [import_release_component, hf] at h
  | some entries =>
    cases ht : tar_data_to_tree entries with
    | error e => simp [import_release_component, hf, ht] at h
    | ok t0 =>
      simp [import_release_component, hf, ht] at h
      exact ⟨h.1.symm, entries, rfl, by rw [ht, h.2]⟩

theorem import_ok_total (fetch : Str → Option (List TarEntry))
    (H : ∀ url e, fetch url = some e → ∃ t, tar_data_to_tree e = .ok t)
    (c : ReleaseComponentRecord) :
    ∃ x, import_release_component fetch c = .ok x := by
  cases hf : fetch c.url with
  | none => exact ⟨none, by simp [import_release_component, hf]⟩
  | some entries =>
    obtain ⟨t, ht⟩ := H c.url entries hf
    exact ⟨some (c, t), by simp [import_release_component, hf, ht]⟩

theorem import_some_of (fetch : Str → Option (List TarEntry))
    (c : ReleaseComponentRecord) (entries : List TarEntry) (t : GitObj)
    (hf : fetch c.url = some entries) (ht : tar_data_to_tree entries = .ok t) :
    import_release_component fetch c = .ok (some (c, t)) := by
  simp [import_release_component, hf, ht]

theorem import_none_of (fetch : Str → Option (List TarEntry))
    (c : ReleaseComponentRecord) (hf : fetch c.url = none) :
    import_release_component fetch c = .ok none := by
  simp [import_release_component, hf]

theorem relResultsFold_ok
    (results : List (Except TarError (Option (ReleaseComponentRecord × GitObj)))) :
    ∀ rb seen, (∀ r ∈ results, ∃ x, r = Except.ok x) →
      ∃ out, relResultsFold results rb seen = .ok out := by
  induction results with
  | nil =>
    intro rb seen _
    exact ⟨(rb, seen), rfl⟩
  | cons r rest ih =>
    intro rb seen hall
    obtain ⟨x, hx⟩ := hall r (List.mem_cons_self _ _)
    subst hx
    cases x with
    | none =>
      have := ih rb seen (fun r hr => hall r (List.mem_cons_of_mem _ hr))
      simpa [relResultsFold] using this
    | some ct =>
      obtain ⟨c, t⟩ := ct
      have := ih (tbInsert rb c.component t GIT_TREE_MODE) (cacheInsert seen c.url t)
        (fun r hr => hall r (List.mem_cons_of_mem _ hr))
      simpa [relResultsFold] using this

theorem relResultsFold_names
    (results : List (Except TarError (Option (ReleaseComponentRecord × GitObj)))) :
    ∀ rb seen out, relResultsFold results rb seen = .ok out →
      ∀ n, (n ∈ tbNames out.1 ↔
        n ∈ tbNames rb ∨ ∃ c t, (Except.ok (some (c, t))) ∈ results ∧ c.component = n) := by
  induction results with
  | nil =>
    intro rb seen out h n
    have h' : (Except.ok (rb, seen) :
        Except TarError (TreeBuilder × List (Str × GitObj))) = .ok out := h
    injection h' with h''
    subst h''
    simp
  | cons r rest ih =>
    intro rb seen out h n
    cases r with
    | error e =>
      have h' : (Except.error e :
          Except TarError (TreeBuilder × List (Str × GitObj))) = .ok out := h
      exact Except.noConfusion h'
    | ok x =>
      cases x with
      | none =>
        have h' : relResultsFold rest rb seen = .ok out := h
        rw [ih rb seen out h' n]
        constructor
        · rintro (h | ⟨c, t, hm, hn⟩)
          · exact Or.inl h
          · exact Or.inr ⟨c, t, List.mem_cons_of_mem _ hm, hn⟩
        · rintro (h | ⟨c, t, hm, hn⟩)
          · exact Or.inl h
          · rcases List.mem_cons.mp hm with he | hm'
            · simp at he
            · exact Or.inr ⟨c, t, hm', hn⟩
      | some ct =>
        obtain ⟨c, t⟩ := ct
        have h' : relResultsFold rest (tbInsert rb c.component t GIT_TREE_MODE)
            (cacheInsert seen c.url t) = .ok out := h
        rw [ih _ _ out h' n, mem_tbNames_insert]
        constructor
        · rintro ((h | rfl) | ⟨c', t', hm, hn⟩)
          · exact Or.inl h
          · exact Or.inr ⟨c, t, List.mem_cons_self _ _, rfl⟩
          · exact Or.inr ⟨c', t', List.mem_cons_of_mem _ hm, hn⟩
        · rintro (h | ⟨c', t', hm, hn⟩)
          · exact Or.inl (Or.inl h)
          · rcases List.mem_cons.mp hm with he | hm'
            · have hct : c' = c ∧ t' = t := by
                simpa using he
              exact Or.inl (Or.inr (by rw [← hn, hct.1]))
            · exact Or.inr ⟨c', t', hm', hn⟩

theorem relResultsFold_keys
    (results : List (Except TarError (Option (ReleaseComponentRecord × GitObj)))) :
    ∀ rb seen out, relResultsFold results rb seen = .ok out →
      ∀ u, (u ∈ urlKeys out.2 ↔
        u ∈ urlKeys seen ∨ ∃ c t, (Except.ok (some (c, t))) ∈ results ∧ c.url = u) := by
  induction results with
  | nil =>
    intro rb seen out h u
    have h' : (Except.ok (rb, seen) :
        Except TarError (TreeBuilder × List (Str × GitObj))) = .ok out := h
    injection h' with h''
    subst h''
    simp
  | cons r rest ih =>
    intro rb seen out h u
    cases r with
    | error e =>
      have h' : (Except.error e :
          Except TarError (TreeBuilder × List (Str × GitObj))) = .ok out := h
      exact Except.noConfusion h'
    | ok x =>
      cases x with
      | none =>
        have h' : relResultsFold rest rb seen = .ok out := h
        rw [ih rb seen out h' u]
        constructor
        · rintro (h | ⟨c, t, hm, hn⟩)
          · exact Or.inl h
          · exact Or.inr ⟨c, t, List.mem_cons_of_mem _ hm, hn⟩
        · rintro (h | ⟨c, t, hm, hn⟩)
          · exact Or.inl h
          · rcases List.mem_cons.mp hm with he | hm'
            · simp at he
            · exact Or.inr ⟨c, t, hm', hn⟩
      | some ct =>
        obtain ⟨c, t⟩ := ct
        have h' : relResultsFold rest (tbInsert rb c.component t GIT_TREE_MODE)
            (cacheInsert seen c.url t) = .ok out := h
        rw [ih _ _ out h' u, mem_urlKeys_cacheInsert]
        constructor
        · rintro ((h | rfl) | ⟨c', t', hm, hn⟩)
          · exact Or.inl h
          · exact Or.inr ⟨c, t, List.mem_cons_self _ _, rfl⟩
          · exact Or.inr ⟨c', t', List.mem_cons_of_mem _ hm, hn⟩
        · rintro (h | ⟨c', t', hm, hn⟩)
          · exact Or.inl (Or.inl h)
          · rcases List.mem_cons.mp hm with he | hm'
            · have hct : c' = c ∧ t' = t := by
                simpa using he
              exact Or.inl (Or.inr (by rw [← hn, hct.1]))
            · exact Or.inr ⟨c', t', hm', hn⟩

theorem relResultsFold_inv (fetch : Str → Option (List TarEntry))
    (results : List (Except TarError (Option (ReleaseComponentRecord × GitObj)))) :
    ∀ rb seen out, relResultsFold results rb seen = .ok out →
      cacheInv fetch seen →
      (∀ c t, (Except.ok (some (c, t))) ∈ results →
        ∃ e, fetch c.url = some e ∧ tar_data_to_tree e = .ok t) →
      cacheInv fetch out.2 := by
  induction results with
  | nil =>
    intro rb seen out h hinv _
    have h' : (Except.ok (rb, seen) :
        Except TarError (TreeBuilder × List (Str × GitObj))) = .ok out := h
    injection h' with h''
    subst h''
    exact hinv
  | cons r rest ih =>
    intro rb seen out h hinv hall
    cases r with
    | error e =>
      have h' : (Except.error e :
          Except TarError (TreeBuilder × List (Str × GitObj))) = .ok out := h
      exact Except.noConfusion h'
    | ok x =>
      cases x with
      | none =>
        have h' : relResultsFold rest rb seen = .ok out := h
        exact ih rb seen out h' hinv (fun c t hm => hall c t (List.mem_cons_of_mem _ hm))
      | some ct =>
        obtain ⟨c, t⟩ := ct
        have h' : relResultsFold rest (tbInsert rb c.component t GIT_TREE_MODE)
            (cacheInsert seen c.url t) = .ok out := h
        apply ih _ _ out h'
        · intro u t0 hmem
          rcases mem_pair_cacheInsert seen c.url t u t0 hmem with hmem' | ⟨rfl, rfl⟩
          · exact hinv u t0 hmem'
          · exact hall c t0 (List.mem_cons_self _ _)
        · intro c' t' hm
          exact hall c' t' (List.mem_cons_of_mem _ hm)

/-- Per-version success: when every fetched archive converts, a version is
processed without error, the cache invariant is preserved, exactly one
commit is appended (chained to the previous one), and the version's tree
contains exactly the components whose URL fetch succeeds. -/
theorem processVersion_ok (fetch : Str → Option (List TarEntry))
    (H : ∀ url e, fetch url = some e → ∃ t, tar_data_to_tree e = .ok t)
    (st : RelState) (v : ReleaseVersionInput) (hinv : cacheInv fetch st.seenTrees) :
    ∃ st' c, processVersion fetch st v = .ok st' ∧
      cacheInv fetch st'.seenTrees ∧
      st'.commits = st.commits ++ [c] ∧
      (c.parents = match st.parentCommit with | some q => [q] | none => []) ∧
      st'.parentCommit = some c ∧
      (∀ n, treeHasName c.tree n ↔
        ∃ comp ∈ v.components, comp.component = n ∧ (fetch comp.url).isSome = true) := by
  have hall : ∀ r ∈ (relCachePass st.seenTrees v.components).2.map
      (fun c => import_release_component fetch c), ∃ x, r = Except.ok x := by
    intro r hr
    rw [List.mem_map] at hr
    obtain ⟨c, _, rfl⟩ := hr
    exact import_ok_total fetch H c
  obtain ⟨out, hout⟩ := relResultsFold_ok
    ((relCachePass st.seenTrees v.components).2.map (fun c => import_release_component fetch c))
    (relCachePass st.seenTrees v.components).1 st.seenTrees hall
  have hsome : ∀ c t, (Except.ok (some (c, t))) ∈
      (relCachePass st.seenTrees v.components).2.map
        (fun c => import_release_component fetch c) →
      ∃ e, fetch c.url = some e ∧ tar_data_to_tree e = .ok t := by
    intro c t hm
    rw [List.mem_map] at hm
    obtain ⟨c0, _, heq⟩ := hm
    obtain ⟨hc, he⟩ := import_some_inv fetch c0 c t heq
    subst hc
    exact he
  have hsomemem : ∀ c t, (Except.ok (some (c, t))) ∈
      (relCachePass st.seenTrees v.components).2.map
        (fun c => import_release_component fetch c) →
      c ∈ (relCachePass st.seenTrees v.components).2 := by
    intro c t hm
    rw [List.mem_map] at hm
    obtain ⟨c0, hc0, heq⟩ := hm
    obtain ⟨hc, -⟩ := import_some_inv fetch c0 c t heq
    subst hc
    exact hc0
  refine ⟨⟨out.2, st.commits ++
      [Commit.mk (v.entity ++ ' ' :: v.version) (tbWrite out.1)
        (match st.parentCommit with | some q => [q] | none => [])],
      tagInsert st.tags v.version
        (Commit.mk (v.entity ++ ' ' :: v.version) (tbWrite out.1)
          (match st.parentCommit with | some q => [q] | none => [])),
      some (Commit.mk (v.entity ++ ' ' :: v.version) (tbWrite out.1)
        (match st.parentCommit with | some q => [q] | none => [])),
      st.fetchLog ++ (relCachePass st.seenTrees v.components).2.map (fun c => c.url)⟩,
    Commit.mk (v.entity ++ ' ' :: v.version) (tbWrite out.1)
      (match st.parentCommit with | some q => [q] | none => []),
    ?_, ?_, rfl, rfl, rfl, ?_⟩
  · simp [processVersion, hout]
  · exact relResultsFold_inv fetch _ _ _ out hout hinv hsome
  · intro n
    have hnames := relResultsFold_names _ _ _ out hout n
    have htree : treeHasName (Commit.tree (Commit.mk (v.entity ++ ' ' :: v.version)
        (tbWrite out.1) (match st.parentCommit with | some q => [q] | none => []))) n ↔
        n ∈ tbNames out.1 := Iff.rfl
    rw [htree, hnames, relCachePass_fst_names]
    constructor
    · rintro (⟨c, hc, hcn, hs⟩ | ⟨c, t, hm, hcn⟩)
      · refine ⟨c, hc, hcn, ?_⟩
        rw [Option.isSome_iff_exists] at hs
        obtain ⟨t, hft⟩ := hs
        obtain ⟨e, hfe, -⟩ := hinv c.url t (assocFind_some_mem _ _ _ hft)
        rw [hfe]
        rfl
      · have hcmem := hsomemem c t hm
        rw [relCachePass_snd, List.mem_filter] at hcmem
        obtain ⟨e, hfe, -⟩ := hsome c t hm
        refine ⟨c, hcmem.1, hcn, ?_⟩
        rw [hfe]
        rfl
    · rintro ⟨comp, hcomp, hcn, hs⟩
      by_cases hcached : (assocFind st.seenTrees comp.url).isSome = true
      · exact Or.inl ⟨comp, hcomp, hcn, hcached⟩
      · have hnone : assocFind st.seenTrees comp.url = none := by
          cases hx : assocFind st.seenTrees comp.url with
          | none => rfl
          | some t => rw [hx] at hcached; simp at hcached
        have hmiss : comp ∈ (relCachePass st.seenTrees v.components).2 := by
          rw [relCachePass_snd, List.mem_filter]
          exact ⟨hcomp, by rw [hnone]; rfl⟩
        rw [Option.isSome_iff_exists] at hs
        obtain ⟨e, hfe⟩ := hs
        obtain ⟨t, ht⟩ := H comp.url e hfe
        right
        refine ⟨comp, t, ?_, hcn⟩
        rw [List.mem_map]
        exact ⟨comp, hmiss, import_some_of fetch comp e t hfe ht⟩

/-- Per-version trees of a release run: each version yields one commit whose
tree contains exactly the components whose URL fetch succeeds. -/
def relTreesMatch (fetch : Str → Option (List TarEntry)) :
    List ReleaseVersionInput → List Commit → Prop
  | [], [] => True
  | v :: vs, c :: cs =>
    (∀ n, treeHasName c.tree n ↔
      ∃ comp ∈ v.components, comp.component = n ∧ (fetch comp.url).isSome = true) ∧
    relTreesMatch fetch vs cs
  | _, _ => False

theorem rel_run_fold (fetch : Str → Option (List TarEntry))
    (H : ∀ url e, fetch url = some e → ∃ t, tar_data_to_tree e = .ok t)
    (versions : List ReleaseVersionInput) :
    ∀ st0 : RelState, cacheInv fetch st0.seenTrees →
      ∃ st, List.foldlM (processVersion fetch) st0 versions = .ok st ∧
        cacheInv fetch st.seenTrees ∧
        ∃ newCommits, st.commits = st0.commits ++ newCommits ∧
          newCommits.length = versions.length ∧
          chainFrom st0.parentCommit newCommits ∧
          relTreesMatch fetch versions newCommits := by
  induction versions with
  | nil =>
    intro st0 hinv
    exact ⟨st0, rfl, hinv, [], by simp, rfl, trivial, trivial⟩
  | cons v vs ih =>
    intro st0 hinv
    obtain ⟨st1, c, hpv, hinv1, hcom1, hpar1, hparc1, hnames1⟩ :=
      processVersion_ok fetch H st0 v hinv
    obtain ⟨st, hfold, hinvf, newCommits, hcom, hlen, hchain, htrees⟩ := ih st1 hinv1
    refine ⟨st, ?_, hinvf, c :: newCommits, ?_, ?_, ?_, ?_⟩
    · have hc : List.foldlM (processVersion fetch) st0 (v :: vs) =
          processVersion fetch st0 v >>= fun s => List.foldlM (processVersion fetch) s vs := rfl
      rw [hc, hpv]
      exact hfold
    · rw [hcom, hcom1]
      simp
    · simp [hlen]
    · refine ⟨hpar1, ?_⟩
      rw [← hparc1]
      exact hchain
    · exact ⟨hnames1, htrees⟩

/-- **C1, counterexample.** A component archive that fetches but fails to
convert does NOT merely skip the component: the conversion error propagates
through `fs?` and aborts the whole run for the entity — no commit is
produced even though the sibling component `A` was fine. -/
theorem C1_component_failure_counterexample :
    create_release_repository
      (fun u => if u = strL "ua" then some []
        else if u = strL "ub" then some [⟨false, none, 0o200, strL "x/y", []⟩]
        else none)
      [⟨strL "rel", strL "1.0",
        [⟨strL "rel", strL "A", strL "ua"⟩, ⟨strL "rel", strL "B", strL "ub"⟩]⟩] =
      .error (.invalidMode 0o200) := rfl

/-- **C1, amended.** A component archive that fails to FETCH is logged and
omitted from its version's tree, siblings are unaffected, and the version
still produces a commit; but a component whose archive fails to CONVERT
aborts the whole run.  Hence: whenever every successfully fetched archive
also converts, the run for the entity completes with exactly one commit per
version, chained in order, and each version's tree contains exactly the
components whose URL fetch succeeds (fetch-failed components are omitted). -/
theorem C1_component_failure_amended :
    ∀ (fetch : Str → Option (List TarEntry)) (versions : List ReleaseVersionInput),
      (∀ url e, fetch url = some e → ∃ t, tar_data_to_tree e = .ok t) →
      ∃ st, create_release_repository fetch versions = .ok st ∧
        st.commits.length = versions.length ∧
        chainFrom none st.commits ∧
        relTreesMatch fetch versions st.commits := by
  intro fetch versions H
  obtain ⟨st, hrun, -, newCommits, hcom, hlen, hchain, htrees⟩ :=
    rel_run_fold fetch H versions ⟨[], [], [], none, []⟩ (by intro u t0 h; simp at h)
  have hcom' : st.commits = newCommits := by simpa using hcom
  refine ⟨st, hrun, ?_, ?_, ?_⟩
  · rw [hcom', hlen]
  · rw [hcom']
    exact hchain
  · rw [hcom']
    exact htrees

/-- Witness for C1: component `B`'s download fails while `A` succeeds — the
run completes, one commit is produced, and its tree contains `A` only. -/
theorem C1_component_failure_amended_witness :
    ∃ st, create_release_repository
        (fun u => if u = strL "ua" then some [] else none)
        [⟨strL "rel", strL "1.0",
          [⟨strL "rel", strL "A", strL "ua"⟩, ⟨strL "rel", strL "B", strL "ub"⟩]⟩] =
        .ok st ∧
      st.commits.length = 1 ∧
      relTreesMatch (fun u => if u = strL "ua" then some [] else none)
        [⟨strL "rel", strL "1.0",
          [⟨strL "rel", strL "A", strL "ua"⟩, ⟨strL "rel", strL "B", strL "ub"⟩]⟩]
        st.commits := by
  obtain ⟨st, hrun, hlen, -, htrees⟩ :=
    C1_component_failure_amended (fun u => if u = strL "ua" then some [] else none)
      [⟨strL "rel", strL "1.0",
        [⟨strL "rel", strL "A", strL "ua"⟩, ⟨strL "rel", strL "B", strL "ub"⟩]⟩]
      (by
        intro url e he
        dsimp only at he
        by_cases hu : url = strL "ua"
        · rw [if_pos hu] at he
          injection he with he'
          subst he'
          exact ⟨.tree [], rfl⟩
        · rw [if_neg hu] at he
          exact Option.noConfusion he)
  exact ⟨st, hrun, hlen, htrees⟩

/-- Field extraction from a successful version step: the cache becomes the
fold's output cache and exactly the missing components' URLs are appended to
the fetch log. -/
theorem processVersion_log (fetch : Str → Option (List TarEntry))
    (st : RelState) (v : ReleaseVersionInput) (st' : RelState)
    (h : processVersion fetch st v = .ok st') :
    ∃ out, relResultsFold
        ((relCachePass st.seenTrees v.components).2.map
          (fun c => import_release_component fetch c))
        (relCachePass st.seenTrees v.components).1 st.seenTrees = .ok out ∧
      st'.seenTrees = out.2 ∧
      st'.fetchLog = st.fetchLog ++
        (relCachePass st.seenTrees v.components).2.map (fun c => c.url) := by
  cases hrf : relResultsFold
      ((relCachePass st.seenTrees v.components).2.map
        (fun c => import_release_component fetch c))
      (relCachePass st.seenTrees v.components).1 st.seenTrees with
  | error e =>
    simp [processVersion, hrf] at h
  | ok out =>
    simp only [processVersion, hrf, Except.ok.injEq] at h
    exact ⟨out, rfl, by rw [← h], by rw [← h]⟩

theorem count_filter_url_kept (u : Str) (p : ReleaseComponentRecord → Bool) :
    ∀ comps : List ReleaseComponentRecord,
      (∀ c ∈ comps, c.url = u → p c = true) →
      ((comps.filter p).map (fun c => c.url)).count u =
        (comps.map (fun c => c.url)).count u := by
  intro comps
  induction comps with
  | nil => intro _; rfl
  | cons c cs ih =>
    intro hp
    have ih' := ih (fun c' h hc => hp c' (List.mem_cons_of_mem _ h) hc)
    by_cases hc : c.url = u
    · have hpc := hp c (List.mem_cons_self _ _) hc
      simp [List.filter_cons, hpc, List.count_cons, hc, ih']
    · cases hpc : p c with
      | true => simp [List.filter_cons, hpc, List.count_cons, hc, ih']
      | false => simp [List.filter_cons, hpc, List.count_cons, hc, ih']

theorem not_mem_filter_url (u : Str) (p : ReleaseComponentRecord → Bool)
    (comps : List ReleaseComponentRecord)
    (hp : ∀ c ∈ comps, c.url = u → p c = false) :
    u ∉ (comps.filter p).map (fun c => c.url) := by
  intro hm
  rw [List.mem_map] at hm
  obtain ⟨c, hc, hcu⟩ := hm
  have hmem := List.mem_filter.mp hc
  have := hp c hmem.1 hcu
  rw [hmem.2] at this
  exact Bool.noConfusion this

/-- The dedup invariant threaded through a release run, for one URL `u`
whose archive fetches and converts: either `u` is cached and was fetched
exactly once, or it is not cached and was never fetched; and `u` is cached
exactly when some processed version's component list mentions it. -/
theorem rel_run_dedup (fetch : Str → Option (List TarEntry)) (u : Str)
    (e0 : List TarEntry) (t0 : GitObj)
    (hf : fetch u = some e0) (ht0 : tar_data_to_tree e0 = .ok t0)
    (versions : List ReleaseVersionInput) :
    ∀ st0 st : RelState,
      List.foldlM (processVersion fetch) st0 versions = .ok st →
      (∀ v ∈ versions, (v.components.map (fun c => c.url)).count u ≤ 1) →
      ((u ∈ urlKeys st0.seenTrees ∧ st0.fetchLog.count u = 1) ∨
       (u ∉ urlKeys st0.seenTrees ∧ st0.fetchLog.count u = 0)) →
      (((u ∈ urlKeys st.seenTrees ∧ st.fetchLog.count u = 1) ∨
        (u ∉ urlKeys st.seenTrees ∧ st.fetchLog.count u = 0)) ∧
       (u ∈ urlKeys st.seenTrees ↔ u ∈ urlKeys st0.seenTrees ∨
         ∃ v ∈ versions, u ∈ v.components.map (fun c => c.url))) := by
  induction versions with
  | nil =>
    intro st0 st h _ hinv
    have h' : (Except.ok st0 : Except TarError RelState) = .ok st := h
    injection h' with h''
    subst h''
    exact ⟨hinv, by simp⟩
  | cons v vs ih =>
    intro st0 st h hcnt hinv
    cases hpv : processVersion fetch st0 v with
    | error e =>
      have h' : (Except.error e : Except TarError RelState) = .ok st := by
        have hc : List.foldlM (processVersion fetch) st0 (v :: vs) =
            processVersion fetch st0 v >>= fun s => List.foldlM (processVersion fetch) s vs := rfl
        rw [hc, hpv] at h
        exact h
      exact Except.noConfusion h'
    | ok st1 =>
      have h' : List.foldlM (processVersion fetch) st1 vs = .ok st := by
        have hc : List.foldlM (processVersion fetch) st0 (v :: vs) =
            processVersion fetch st0 v >>= fun s => List.foldlM (processVersion fetch) s vs := rfl
        rw [hc, hpv] at h
        exact h
      obtain ⟨out, hout, hseen1, hlog1⟩ := processVersion_log fetch st0 v st1 hpv
      have hkeys1 := relResultsFold_keys _ _ _ out hout
      have hcnt' : ∀ v' ∈ vs, (v'.components.map (fun c => c.url)).count u ≤ 1 :=
        fun v' hv' => hcnt v' (List.mem_cons_of_mem _ hv')
      rcases hinv with ⟨hmem0, hone0⟩ | ⟨hnmem0, hzero0⟩
      · -- u already cached: no occurrence of u is missing, log unchanged for u
        have hfind : (assocFind st0.seenTrees u).isSome = true :=
          (assocFind_isSome_iff _ _).mpr hmem0
        have hnotlog : u ∉ (relCachePass st0.seenTrees v.components).2.map
            (fun c => c.url) := by
          rw [relCachePass_snd]
          apply not_mem_filter_url
          intro c _ hcu
          rw [hcu]
          cases hx : assocFind st0.seenTrees u with
          | none => rw [hx] at hfind; simp at hfind
          | some t => rfl
        have hone1 : st1.fetchLog.count u = 1 := by
          rw [hlog1, List.count_append, List.count_eq_zero.mpr hnotlog, hone0]
        have hmem1 : u ∈ urlKeys st1.seenTrees := by
          rw [hseen1, hkeys1 u]
          exact Or.inl hmem0
        obtain ⟨hfin, hiff⟩ := ih st1 st h' hcnt' (Or.inl ⟨hmem1, hone1⟩)
        refine ⟨hfin, ?_⟩
        rw [hiff]
        constructor
        · intro _
          exact Or.inl hmem0
        · intro _
          exact Or.inl hmem1
      · -- u not yet cached
        have hfindn : assocFind st0.seenTrees u = none := by
          cases hx : assocFind st0.seenTrees u with
          | none => rfl
          | some t =>
            exact absurd ((assocFind_isSome_iff _ _).mp (by rw [hx]; rfl)) hnmem0
        have hkept : ∀ c ∈ v.components, c.url = u →
            (fun c => (assocFind st0.seenTrees c.url).isNone) c = true := by
          intro c _ hcu
          show (assocFind st0.seenTrees c.url).isNone = true
          rw [hcu, hfindn]
          rfl
        have hmisscnt : ((relCachePass st0.seenTrees v.components).2.map
            (fun c => c.url)).count u =
            (v.components.map (fun c => c.url)).count u := by
          rw [relCachePass_snd]
          exact count_filter_url_kept u _ v.components hkept
        by_cases hocc : u ∈ v.components.map (fun c => c.url)
        · -- exactly one occurrence: fetched once, then cached
          have hvcnt : (v.components.map (fun c => c.url)).count u = 1 := by
            have hle := hcnt v (List.mem_cons_self _ _)
            have hpos : 0 < (v.components.map (fun c => c.url)).count u :=
              List.count_pos_iff.mpr hocc
            omega
          have hone1 : st1.fetchLog.count u = 1 := by
            rw [hlog1, List.count_append, hzero0, hmisscnt, hvcnt]
          obtain ⟨c, hcmiss, hcu⟩ : ∃ c ∈ (relCachePass st0.seenTrees v.components).2,
              c.url = u := by
            have : u ∈ (relCachePass st0.seenTrees v.components).2.map
                (fun c => c.url) := by
              rw [← List.count_pos_iff, hmisscnt, hvcnt]
              omega
            rw [List.mem_map] at this
            obtain ⟨c, hc, hcu⟩ := this
            exact ⟨c, hc, hcu⟩
          have himp : import_release_component fetch c = .ok (some (c, t0)) := by
            apply import_some_of fetch c e0 t0
            · rw [hcu]
              exact hf
            · exact ht0
          have hmem1 : u ∈ urlKeys st1.seenTrees := by
            rw [hseen1, hkeys1 u]
            right
            refine ⟨c, t0, ?_, hcu⟩
            rw [List.mem_map]
            exact ⟨c, hcmiss, himp⟩
          obtain ⟨hfin, hiff⟩ := ih st1 st h' hcnt' (Or.inl ⟨hmem1, hone1⟩)
          refine ⟨hfin, ?_⟩
          rw [hiff]
          constructor
          · intro _
            exact Or.inr ⟨v, List.mem_cons_self _ _, hocc⟩
          · intro _
            exact Or.inl hmem1
        · -- no occurrence: nothing fetched, nothing cached
          have hzero1 : st1.fetchLog.count u = 0 := by
            rw [hlog1, List.count_append, hzero0, hmisscnt,
              List.count_eq_zero.mpr hocc]
          have hnmem1 : u ∉ urlKeys st1.seenTrees := by
            rw [hseen1, hkeys1 u]
            rintro (h | ⟨c, t, hm, hcu⟩)
            · exact hnmem0 h
            · rw [List.mem_map] at hm
              obtain ⟨c0, hc0, heq⟩ := hm
              obtain ⟨hceq, -⟩ := import_some_inv fetch c0 c t heq
              subst hceq
              apply hocc
              rw [List.mem_map]
              refine ⟨c, ?_, hcu⟩
              rw [relCachePass_snd, List.mem_filter] at hc0
              exact hc0.1
          obtain ⟨hfin, hiff⟩ := ih st1 st h' hcnt' (Or.inr ⟨hnmem1, hzero1⟩)
          refine ⟨hfin, ?_⟩
          rw [hiff]
          constructor
          · rintro (h | h)
            · exact absurd h hnmem1
            · exact Or.inr (by
                obtain ⟨v', hv', hu'⟩ := h
                exact ⟨v', List.mem_cons_of_mem _ hv', hu'⟩)
          · rintro (h | ⟨v', hv', hu'⟩)
            · exact absurd h hnmem0
            · rcases List.mem_cons.mp hv' with rfl | hv''
              · exact absurd hu' hocc
              · exact Or.inr ⟨v', hv'', hu'⟩

/-- **C5, counterexample.** The same archive URL appearing TWICE within one
version's component list is fetched twice: both occurrences miss the (still
empty) cache, both enter the `missing` batch, and `join_all` fetches both —
fetch count 2 for that URL across the run, refuting "fetched and converted
at most once". -/
theorem C5_dedup_counterexample :
    ∃ st, create_release_repository
        (fun url => if url = strL "u" then some [] else none)
        [⟨strL "rel", strL "1.0",
          [⟨strL "rel", strL "A", strL "u"⟩, ⟨strL "rel", strL "B", strL "u"⟩]⟩] =
        .ok st ∧
      List.count (strL "u") st.fetchLog = 2 :=
  ⟨_, rfl, rfl⟩

/-- **C5, amended.** Once a tree identifier for a URL is in the dedup cache,
no later fetch of it occurs: in a successful run, a URL whose archive
fetches and converts and which appears at most once per version's component
list is fetched at most once across the whole run — exactly once if any
version mentions it (its first occurrence populates the cache; every later
occurrence reuses the cached tree).  A URL may be fetched more than once
only if it repeats within a single version's component list (it enters that
version's fetch batch once per occurrence). -/
theorem C5_dedup_amended :
    ∀ (fetch : Str → Option (List TarEntry)) (versions : List ReleaseVersionInput)
      (st : RelState) (u : Str) (e0 : List TarEntry) (t0 : GitObj),
      create_release_repository fetch versions = .ok st →
      fetch u = some e0 → tar_data_to_tree e0 = .ok t0 →
      (∀ v ∈ versions, (v.components.map (fun c => c.url)).count u ≤ 1) →
      List.count u st.fetchLog ≤ 1 ∧
      ((∃ v ∈ versions, u ∈ v.components.map (fun c => c.url)) ↔
        List.count u st.fetchLog = 1) := by
  intro fetch versions st u e0 t0 hrun hf ht0 hcnt
  obtain ⟨hfin, hiff⟩ := rel_run_dedup fetch u e0 t0 hf ht0 versions
    ⟨[], [], [], none, []⟩ st hrun hcnt (Or.inr ⟨by simp [urlKeys], rfl⟩)
  have hiff' : u ∈ urlKeys st.seenTrees ↔
      ∃ v ∈ versions, u ∈ v.components.map (fun c => c.url) := by
    rw [hiff]
    simp [urlKeys]
  constructor
  · rcases hfin with ⟨-, h1⟩ | ⟨-, h0⟩
    · omega
    · omega
  · rw [← hiff']
    rcases hfin with ⟨hm, h1⟩ | ⟨hnm, h0⟩
    · exact ⟨fun _ => h1, fun _ => hm⟩
    · exact ⟨fun hm => absurd hm hnm, fun h1 => by omega⟩

/-- Witness for C5: one URL shared by two consecutive versions is fetched
exactly once across the run. -/
theorem C5_dedup_amended_witness :
    ∃ st, create_release_repository
        (fun url => if url = strL "u" then some [] else none)
        [⟨strL "rel", strL "1.0", [⟨strL "rel", strL "A", strL "u"⟩]⟩,
         ⟨strL "rel", strL "1.1", [⟨strL "rel", strL "A", strL "u"⟩]⟩] =
        .ok st ∧
      List.count (strL "u") st.fetchLog = 1 := by
  obtain ⟨-, hiff⟩ := C5_dedup_amended
    (fun url => if url = strL "u" then some [] else none)
    [⟨strL "rel", strL "1.0", [⟨strL "rel", strL "A", strL "u"⟩]⟩,
     ⟨strL "rel", strL "1.1", [⟨strL "rel", strL "A", strL "u"⟩]⟩]
    _ (strL "u") [] (.tree []) rfl (by simp) rfl (by decide)
  exact ⟨_, rfl, hiff.mp ⟨_, List.mem_cons_self _ _, by simp⟩⟩

end AppleOSS
